import Mathlib

/-!
Verification development for the EPOP-Benchmark-IREC-2026 evaluation script
`script/kbeval-main-experiment.py`.

The Python program is shallowly embedded: pure functions become Lean
functions, Python exceptions become `Except PyErr`, Python floats arising
from exact integer divisions become `ℚ`, Python `set`s whose iteration
order is never observable become insertion-ordered duplicate-free lists,
and Python object identity (used by `set` membership on `Relation`
objects) becomes list indices.

Components imported from the `evaluate` package (`MunkresPairing`, `Pair`,
`BaseScores`, `IEScores`) are not part of the repository sources; they are
modelled from the specification and marked `Modelled from the spec:`.
-/

set_option maxHeartbeats 1000000

deriving instance DecidableEq for Except

/-- Python float multiplication on the exact rationals arising in this
script, written in a kernel-computable normal form; `pyMul_eq` shows it is
ordinary multiplication. -/
def pyMul (a b : ℚ) : ℚ := mkRat (a.num * b.num) (a.den * b.den)

/-- Python float addition in kernel-computable normal form; `pyAdd_eq`
shows it is ordinary addition. -/
def pyAdd (a b : ℚ) : ℚ := mkRat (a.num * b.den + b.num * a.den) (a.den * b.den)

/-- Python exception kinds raised by the embedded code. -/
inductive PyErr where
  | keyError
  | indexError
  | typeError
  | valueError
  | attributeError
  | zeroDivisionError
deriving DecidableEq, Repr

/-- The Python whitespace class used by `str.split()`, `str.strip()` and the
regex class in the script: space, tab, newline, carriage return, form feed,
vertical tab. -/
def pyIsSpace (c : Char) : Bool :=
  c = ' ' || c = '\t' || c = '\n' || c = Char.ofNat 13 || c = Char.ofNat 12 || c = Char.ofNat 11

/-- ASCII lower-casing of one character. -/
def pyLowerChar (c : Char) : Char :=
  if 65 ≤ c.toNat ∧ c.toNat ≤ 90 then Char.ofNat (c.toNat + 32) else c

/-- Python `str.lower()` (ASCII case mapping suffices for this data). -/
def pyLower (s : String) : String :=
  String.mk (s.toList.map pyLowerChar)

/-- Python `str.split()` with no argument: split on whitespace runs,
discarding empty fragments. -/
def pySplit (s : String) : List String :=
  ((s.toList.splitOnP pyIsSpace).filter (fun l => l ≠ [])).map (fun l => String.mk l)

/-- `MergedEntity.QUOTES`: straight double and single quote, the four curly
quotes U+2018..U+201D, backquote U+0060 and acute accent U+00B4. -/
def QUOTES : List Char :=
  [Char.ofNat 34, Char.ofNat 39, Char.ofNat 0x2018, Char.ofNat 0x2019,
   Char.ofNat 0x201c, Char.ofNat 0x201d, Char.ofNat 0x60, Char.ofNat 0xb4]

/-- The quote-stripping step shared by `MergedEntity.match_name` and
`MergedEntity.jaccard_name`: if the first and last character are both quote
characters, drop them (`pred_name[1:-1]`). Callers guard against the empty
string, on which the Python subscript `pred_name[0]` raises. -/
def stripQuotes (s : String) : String :=
  let l := s.toList
  match l.head?, l.getLast? with
  | some a, some b => if a ∈ QUOTES ∧ b ∈ QUOTES then String.mk (l.drop 1).dropLast else s
  | _, _ => s

/-- `Entity.__init__`: id (absent ids become `None`), type, surface name and
the single normalization selected by the first matching entry of
`NORM_TYPES`. -/
structure Entity where
  id_ : Option String
  type_ : String
  name : String
  normalization_type : String
  normalization_value : String
deriving DecidableEq, Repr

/-- `Entity.key = (self.type_, self.normalization_type, self.normalization_value)`. -/
def Entity.key (e : Entity) : String × String × String :=
  (e.type_, e.normalization_type, e.normalization_value)

/-- `MergedEntity`: a cluster of reference entities.  `ids` and `names` are
Python sets; they are embedded as insertion-ordered duplicate-free lists
(no use of them depends on Python's set iteration order). -/
structure MergedEntity where
  type_ : String
  ids : List (Option String)
  names : List String
  normalization_type : String
  normalization_value : String
deriving DecidableEq, Repr

/-- `MergedEntity.key`, copied from the creating entity's key. -/
def MergedEntity.key (m : MergedEntity) : String × String × String :=
  (m.type_, m.normalization_type, m.normalization_value)

/-- `MergedEntity.__init__(ent)`. -/
def MergedEntity.ofEntity (e : Entity) : MergedEntity :=
  ⟨e.type_, [e.id_], [e.name], e.normalization_type, e.normalization_value⟩

/-- Set insertion: add an element to the back unless already present. -/
def insertNew [DecidableEq α] (l : List α) (a : α) : List α :=
  if a ∈ l then l else l ++ [a]

/-- `MergedEntity.add(ent)`: record the member's id and surface name. -/
def MergedEntity.add (m : MergedEntity) (e : Entity) : MergedEntity :=
  { m with ids := insertNew m.ids e.id_, names := insertNew m.names e.name }

/-- `MergedEntity.match_name(pred_name)`: strip one pair of surrounding
quotes, lowercase, and compare against every recorded surface name.  The
subscript `pred_name[0]` raises `IndexError` on the empty string. -/
def match_name (m : MergedEntity) (pred_name : String) : Except PyErr Bool :=
  if pred_name = "" then .error .indexError
  else
    let p := pyLower (stripQuotes pred_name)
    .ok (m.names.any (fun n => pyLower n = p))

/-- The list of shifts `range(1 - n1, n2)` of `MergedEntity._jaccard_seq`. -/
def seqShifts (n1 n2 : Nat) : List Int :=
  (List.range (n1 + n2 - 1)).map (fun k => (1 - (n1 : Int)) + k)

/-- One iteration of the `for shift in range(1 - n1, n2)` loop body of
`MergedEntity._jaccard_seq`: take `m = min(len(sub1), len(sub2))` and
record it as the new best only when `m > best` and the two aligned
overlaps are entirely equal. -/
def jaccardStep (seq1 seq2 : List String) (b : Nat) (shift : Int) : Nat :=
  let sub1 := seq1.drop (-shift).toNat
  let sub2 := seq2.drop shift.toNat
  let m := min sub1.length sub2.length
  if b < m ∧ sub1.take m = sub2.take m then m else b

/-- `MergedEntity._jaccard_seq(seq1, seq2)`: slide one token sequence along
the other, keeping the best full-overlap match.  The final division
`float(best) / union` raises `ZeroDivisionError` when both sequences are
empty. -/
def jaccard_seq (seq1 seq2 : List String) : Except PyErr ℚ :=
  let n1 := seq1.length
  let n2 := seq2.length
  let best := (seqShifts n1 n2).foldl (jaccardStep seq1 seq2) 0
  let union := n1 + n2 - best
  if union = 0 then .error .zeroDivisionError
  else .ok (mkRat best union)

/-- `MergedEntity.jaccard_name(pred_name)`: strip quotes, lowercase and
tokenize the candidate, score it against every recorded surface name with
`_jaccard_seq`, and take the maximum.  `pred_name[0]` raises on the empty
string; `max` over an empty name set raises `ValueError`. -/
def jaccard_name (m : MergedEntity) (pred_name : String) : Except PyErr ℚ :=
  if pred_name = "" then .error .indexError
  else do
    let ptoks := pySplit (pyLower (stripQuotes pred_name))
    let scores ← m.names.mapM (fun n => jaccard_seq (pySplit (pyLower n)) ptoks)
    match scores with
    | [] => .error .valueError
    | s :: ss => .ok (ss.foldl max s)

/-- Python `max` over a non-empty collection of scores (`0` on the empty
list, which the callers below never hit). -/
def listMax : List ℚ → ℚ
  | [] => 0
  | x :: xs => xs.foldl max x

/-- Length of the longest common prefix of two token sequences: the length
of the literal token-by-token match starting at the aligned position, as
claim C1 words it. -/
def lcpLen : List String → List String → Nat
  | a :: as, b :: bs => if a = b then lcpLen as bs + 1 else 0
  | _, _ => 0

/-- Token-alignment best overlap as claim C1 states it: for every shift,
the length of the literal token-by-token match starting at the aligned
position (a longest-common-prefix length), maximised over all shifts.
Stated from the claim's words, for comparison with `jaccard_seq`. -/
def claimedBest (seq1 seq2 : List String) : Nat :=
  (seqShifts seq1.length seq2.length).foldl
    (fun b shift => max b (lcpLen (seq1.drop (-shift).toNat) (seq2.drop shift.toNat))) 0

/-- Token-alignment score as claim C1 states it:
`max(m) / (n1 + n2 - max(m))` with `m` a longest-common-prefix length. -/
def claimedSeqScore (seq1 seq2 : List String) : ℚ :=
  mkRat (claimedBest seq1 seq2) (seq1.length + seq2.length - claimedBest seq1 seq2)

/-- Relaxed argument similarity as claim C1 states it: lowercase, tokenize
by whitespace, score each surface name with `claimedSeqScore`, take the
maximum over the surface names. -/
def claimedArgScore (me : MergedEntity) (pname : String) : ℚ :=
  listMax (me.names.map (fun n => claimedSeqScore (pySplit (pyLower n)) (pySplit (pyLower pname))))

/-- The aligned-overlap length the code actually uses at one shift: the
full overlap `m = min(len(sub1), len(sub2))` when the two overlaps agree
token-by-token in their entirety, and `0` otherwise. -/
def alignedOverlap (seq1 seq2 : List String) (shift : Int) : Nat :=
  let sub1 := seq1.drop (-shift).toNat
  let sub2 := seq2.drop shift.toNat
  let m := min sub1.length sub2.length
  if sub1.take m = sub2.take m then m else 0

/-- Best full-overlap match length over all shifts. -/
def bestAlignedOverlap (seq1 seq2 : List String) : Nat :=
  (seqShifts seq1.length seq2.length).foldl
    (fun b shift => max b (alignedOverlap seq1 seq2 shift)) 0

/-- Amended token-alignment score: `best / (n1 + n2 - best)` where `best`
is the best full-overlap match length. -/
def amendedSeqScore (seq1 seq2 : List String) : ℚ :=
  mkRat (bestAlignedOverlap seq1 seq2)
    (seq1.length + seq2.length - bestAlignedOverlap seq1 seq2)

/-- Amended relaxed argument similarity: quote-strip and lowercase the
candidate, tokenize by whitespace, score each surface name with
`amendedSeqScore`, take the maximum over the surface names. -/
def amendedArgScore (me : MergedEntity) (pname : String) : ℚ :=
  let ptoks := pySplit (pyLower (stripQuotes pname))
  listMax (me.names.map (fun n => amendedSeqScore (pySplit (pyLower n)) ptoks))

/-- First-match association-list lookup: a read of a Python `dict`. -/
def lookupA [DecidableEq α] : List (α × β) → α → Option β
  | [], _ => none
  | p :: ps, k => if p.1 = k then some p.2 else lookupA ps k

/-- Association-list write: a Python `dict` assignment (replace the binding
if the key is present, append it otherwise). -/
def updateA [DecidableEq α] : List (α × β) → α → β → List (α × β)
  | [], k, v => [(k, v)]
  | p :: ps, k, v => if p.1 = k then (k, v) :: ps else p :: updateA ps k v

/-- `Relation.__init__` after field extraction: type plus source/target
reference strings. -/
structure Relation where
  type_ : String
  source : String
  target : String
deriving DecidableEq, Repr

/-- `MergedRelation.TYPEMAP`: the fixed synonym table for relation types. -/
def TYPEMAP : List (String × String) :=
  [("Cause", "Causes"), ("Affect", "Affects"),
   ("Have been found on", "Has been found on"), ("Transmit", "Transmits")]

/-- `MergedRelation._normalize_type`: map the raw label through the synonym
table, delete every whitespace and underscore character, lowercase. -/
def normalize_type (t : String) : String :=
  let mapped := (lookupA TYPEMAP t).getD t
  pyLower (String.mk (mapped.toList.filter (fun c => !(pyIsSpace c || c = '_'))))

/-- `MergedRelation`: a canonical reference relation holding its raw type
and the two merged argument entities. -/
structure MergedRelation where
  type_ : String
  source : MergedEntity
  target : MergedEntity
deriving DecidableEq, Repr

/-- `MergedRelation.match_type`. -/
def MergedRelation.match_type (r : MergedRelation) (pred_type : String) : Bool :=
  normalize_type r.type_ = normalize_type pred_type

/-- `Dataset`: the unit produced by parsing one input file.  Equivalences
are kept as id lists; every use is membership or exhaustive iteration, so
Python's `set(eq)` deduplication is observationally irrelevant. -/
structure Dataset where
  entities : List Entity
  relations : List Relation
  equivalences : List (List String)
deriving DecidableEq, Repr

/-- State of the `Dataset._merge_ref_entities` scan: created clusters in
creation order, the `ent_map` from identity key to cluster index, and the
`eqid_map` from pre-registered raw id to cluster index. -/
structure MergeState where
  clusters : List MergedEntity
  entMap : List ((String × String × String) × Nat)
  eqidMap : List (String × Nat)
deriving Repr

/-- Apply a function to the element at one index (mutation of the cluster
object shared by both maps in the Python original). -/
def updateAt (f : α → α) : Nat → List α → List α
  | _, [] => []
  | 0, x :: xs => f x :: xs
  | n + 1, x :: xs => x :: updateAt f n xs

/-- Registration performed when a new cluster is created: for every
equivalence set containing the creating entity's id, point every id of
that set at the new cluster. -/
def registerEq (eqs : List (List String)) (id? : Option String) (idx : Nat)
    (m : List (String × Nat)) : List (String × Nat) :=
  eqs.foldl (fun acc eqset =>
    match id? with
    | some i => if i ∈ eqset then eqset.foldl (fun a x => updateA a x idx) acc else acc
    | none => acc) m

/-- One step of `Dataset._merge_ref_entities`: if the identity key is
known, add to that cluster; else if the id was pre-registered via an
equivalence set, add to that cluster; else create a new cluster and
register every id of every equivalence set containing this entity's id. -/
def mergeStep (eqs : List (List String)) (st : MergeState) (e : Entity) : MergeState :=
  match lookupA st.entMap e.key with
  | some i => { st with clusters := updateAt (fun c => c.add e) i st.clusters }
  | none =>
    match (match e.id_ with | some i => lookupA st.eqidMap i | none => none) with
    | some i => { st with clusters := updateAt (fun c => c.add e) i st.clusters }
    | none =>
      { clusters := st.clusters ++ [MergedEntity.ofEntity e]
        entMap := updateA st.entMap e.key st.clusters.length
        eqidMap := registerEq eqs e.id_ st.clusters.length st.eqidMap }

/-- `Dataset._merge_ref_entities`: scan the raw entities in order and
return the merged clusters in creation order. -/
def merge_ref_entities (ds : Dataset) : List MergedEntity :=
  (ds.entities.foldl (mergeStep ds.equivalences) ⟨[], [], []⟩).clusters

/-- Identity key triple. -/
abbrev EntityKey := String × String × String

/-- `Relation.key(ent_id_map)` value: raw relation type together with the
identity keys of the source and target clusters. -/
abbrev RelKey := String × EntityKey × EntityKey

/-- The `ent_id_map` built at the start of `Dataset._merge_ref_relations`:
every recorded id of every merged entity maps to its cluster. -/
def buildEntIdMap (cs : List MergedEntity) : List (Option String × MergedEntity) :=
  cs.foldl (fun m c => c.ids.foldl (fun m' x => updateA m' x c) m) []

/-- An `ent_id_map[...]` read: raises `KeyError` when the id is unknown. -/
def getEnt (m : List (Option String × MergedEntity)) (x : String) :
    Except PyErr MergedEntity :=
  match lookupA m (some x) with
  | some c => .ok c
  | none => .error .keyError

/-- The key of a built `MergedRelation`, for stating the dedup property. -/
def mrKey (mr : MergedRelation) : RelKey := (mr.type_, mr.source.key, mr.target.key)

/-- The loop of `Dataset._merge_ref_relations` with its `rel_map` seen-set:
compute `rel.key(ent_id_map)` (raising `KeyError` on unresolvable ids) and
keep only the first relation per key. -/
def mergeRelsAux (m : List (Option String × MergedEntity)) :
    List Relation → List RelKey → Except PyErr (List MergedRelation)
  | [], _ => .ok []
  | r :: rs, seen =>
    match getEnt m r.source with
    | .error e => .error e
    | .ok s =>
      match getEnt m r.target with
      | .error e => .error e
      | .ok t =>
        if ((r.type_, s.key, t.key) : RelKey) ∈ seen then mergeRelsAux m rs seen
        else
          match mergeRelsAux m rs ((r.type_, s.key, t.key) :: seen) with
          | .error e => .error e
          | .ok rest => .ok (⟨r.type_, s, t⟩ :: rest)

/-- `Dataset._merge_ref_relations`. -/
def merge_ref_relations (cs : List MergedEntity) (rels : List Relation) :
    Except PyErr (List MergedRelation) :=
  mergeRelsAux (buildEntIdMap cs) rels []

/-- `MergedRefDataset`: canonical entities and relations. -/
structure MergedRefDataset where
  entities : List MergedEntity
  relations : List MergedRelation
deriving DecidableEq, Repr

/-- `Dataset.merge_ref`. -/
def merge_ref (ds : Dataset) : Except PyErr MergedRefDataset := do
  let cs := merge_ref_entities ds
  let rels ← merge_ref_relations cs ds.relations
  pure ⟨cs, rels⟩

/-- Invariant of the `Dataset._merge_ref_entities` scan: cluster ids come
from processed entities, every processed entity's id lies in exactly one
cluster, every cluster carries the head id and the identity fields of its
first (creating) member, and both maps point below the cluster count. -/
def MergeInv (processed : List Entity) (st : MergeState) : Prop :=
  (∀ c ∈ st.clusters, ∀ x ∈ c.ids, ∃ e ∈ processed, e.id_ = x)
  ∧ (∀ e ∈ processed, ∃ n c, st.clusters.get? n = some c ∧ e.id_ ∈ c.ids
      ∧ ∀ m c', st.clusters.get? m = some c' → e.id_ ∈ c'.ids → m = n)
  ∧ (∀ c ∈ st.clusters, ∃ e ∈ processed,
      c.ids.head? = some e.id_ ∧ c.type_ = e.type_
      ∧ c.normalization_type = e.normalization_type
      ∧ c.normalization_value = e.normalization_value)
  ∧ (∀ p ∈ st.entMap, p.2 < st.clusters.length)
  ∧ (∀ p ∈ st.eqidMap, p.2 < st.clusters.length)

/-- JSON-like values as this script consumes them.  Leaf values of the
fields the script reads are strings in the EPOP data, so the embedding
restricts leaves to strings. -/
inductive J where
  | str (s : String)
  | arr (xs : List J)
  | obj (fields : List (String × J))

/-- Outcome of `json.loads` (an external library call): either a parse
failure (`json.decoder.JSONDecodeError`) or a parsed value. -/
inductive DecodeOutcome where
  | malformed
  | json (j : J)

/-- A file read attempt: the file is absent, or present with some text. -/
inductive RawFile where
  | missing
  | present (text : String)

/-- Failures of the whole script: `exit(1)` on a missing file, or an
uncaught Python exception. -/
inductive Fail where
  | exitFatal
  | pyError (e : PyErr)
deriving DecidableEq, Repr

/-- Python `str.strip()`. -/
def pyStrip (s : String) : String :=
  String.mk (((s.toList.dropWhile pyIsSpace).reverse.dropWhile pyIsSpace).reverse)

/-- Index of the leftmost occurrence of `pat` in `l`. -/
def findFirstIdx (pat l : List Char) : Option Nat :=
  ((List.range (l.length + 1)).filter (fun i => pat.isPrefixOf (l.drop i))).head?

/-- Index of the rightmost occurrence of `pat` in `l` at or after `start`. -/
def findLastIdxFrom (pat l : List Char) (start : Nat) : Option Nat :=
  ((List.range (l.length + 1)).filter
    (fun j => decide (start ≤ j) && pat.isPrefixOf (l.drop j))).getLast?

/-- `remove_codeblock`, the regex `'```json(.*)```'` with `re.DOTALL`: a
search match exists iff some occurrence of "```json" is followed (at
distance at least 7) by an occurrence of "```"; the match starts at the
leftmost "```json" and the greedy group runs to the last "```". -/
def remove_codeblock (s : String) : String :=
  let l := s.toList
  match findFirstIdx "```json".toList l with
  | none => s
  | some i =>
    match findLastIdxFrom "```".toList l (i + 7) with
    | none => s
    | some j => String.mk ((l.drop (i + 7)).take (j - (i + 7)))

/-- `remove_last_comma`, the regex `r',(?=\s*[\}\]])'` with global
substitution: delete every comma followed by optional whitespace and a
closing brace or bracket. -/
def removeLastCommaAux : List Char → List Char
  | [] => []
  | c :: rest =>
    if (c == ',') && (match (rest.dropWhile pyIsSpace).head? with
                      | some x => (x == Char.ofNat 125) || (x == ']')
                      | none => false)
    then removeLastCommaAux rest
    else c :: removeLastCommaAux rest

/-- `remove_last_comma` on strings. -/
def remove_last_comma (s : String) : String :=
  String.mk (removeLastCommaAux s.toList)

/-- `NORM_TYPES`, in priority order; `name` is the bare-name fallback. -/
def NORM_TYPES : List String := ["NCBI_Taxonomy", "GeoNames", "OntoBiotope", "name"]

/-- `args[k]` on a parsed object: `KeyError` when absent. -/
def getField (fs : List (String × J)) (k : String) : Except PyErr J :=
  match lookupA fs k with
  | some v => .ok v
  | none => .error .keyError

/-- Read a leaf string (the embedding restricts leaf values to strings). -/
def asStr : J → Except PyErr String
  | .str s => .ok s
  | _ => .error .typeError

/-- Python truthiness of the values in this embedding. -/
def truthyJ : J → Bool
  | .str s => s != ""
  | .arr xs => !xs.isEmpty
  | .obj fs => !fs.isEmpty

/-- `Entity(**ent)`: optional id, mandatory `type` and `name`, and the
first normalization field of `NORM_TYPES` found in the record (the
`name` fallback makes the no-normalization `AttributeError` unreachable
when `name` is present). -/
def entityFromJ : J → Except PyErr Entity
  | .obj fs => do
      let id? ← match lookupA fs "id" with
                | none => pure none
                | some v => (asStr v).map some
      let t ← getField fs "type" >>= asStr
      let n ← getField fs "name" >>= asStr
      match NORM_TYPES.find? (fun nt => (lookupA fs nt).isSome) with
      | some nt => do
          let v ← getField fs nt >>= asStr
          pure ⟨id?, t, n, nt, v⟩
      | none => .error .attributeError
  | _ => .error .typeError

/-- `Relation(**rel)`: mandatory `type`; arguments either nested under
`arguments` or flat, with a falsy `target` falling back to `name`. -/
def relationFromJ : J → Except PyErr Relation
  | .obj fs => do
      let t ← getField fs "type" >>= asStr
      match lookupA fs "arguments" with
      | some (J.obj afs) => do
          let src ← getField afs "source" >>= asStr
          let tgt ← getField afs "target" >>= asStr
          pure ⟨t, src, tgt⟩
      | some _ => .error .typeError
      | none => do
          let src ← getField fs "source" >>= asStr
          let tgt ← match lookupA fs "target" with
                    | some v => if truthyJ v then asStr v else getField fs "name" >>= asStr
                    | none => getField fs "name" >>= asStr
          pure ⟨t, src, tgt⟩
  | _ => .error .typeError

/-- Iterate a JSON array (the data's `entities`/`relationships` are
arrays; other shapes raise `TypeError`). -/
def iterList : J → Except PyErr (List J)
  | .arr xs => .ok xs
  | _ => .error .typeError

/-- `elt.get(key, [])` followed by `list.extend`. -/
def iterDefault : Option J → Except PyErr (List J)
  | none => .ok []
  | some v => iterList v

/-- `squash_list(j)`: union the `entities`/`relationships` of a list of
generation chunks into one record; non-dict chunks raise
`AttributeError` at `elt.get`. -/
def squash_list : J → Except PyErr J
  | .arr elts => do
      let pairs ← elts.mapM (fun elt =>
        match elt with
        | J.obj fs => do
            let es ← iterDefault (lookupA fs "entities")
            let rs ← iterDefault (lookupA fs "relationships")
            pure (es, rs)
        | _ => .error .attributeError)
      pure (J.obj [("entities", J.arr (pairs.map Prod.fst).join),
                   ("relationships", J.arr (pairs.map Prod.snd).join)])
  | j => pure j

/-- `j.get(...)` requires a dict; other values raise `AttributeError`. -/
def asObj : J → Except PyErr (List (String × J))
  | .obj fs => .ok fs
  | _ => .error .attributeError

/-- The body of `Dataset.from_json_file` after `json.loads` succeeded:
squash chunk lists, default a falsy `relationships` to `[]`, construct
entities, relations and equivalence sets. -/
def buildDataset (j : J) : Except PyErr Dataset := do
  let j1 ← squash_list j
  let fs ← asObj j1
  let relsJ : J := match lookupA fs "relationships" with
                   | none => J.arr []
                   | some v => if truthyJ v then v else J.arr []
  let entsJ ← getField fs "entities" >>= iterList
  let ents ← entsJ.mapM entityFromJ
  let relsL ← iterList relsJ
  let rels ← relsL.mapM relationFromJ
  let eqs ← match lookupA fs "equivalences" with
            | none => pure []
            | some v => do
                let sets ← iterList v
                sets.mapM (fun e => do
                  let xs ← iterList e
                  xs.mapM asStr)
  pure ⟨ents, rels, eqs⟩

/-- `Dataset.from_json_file`, parameterized by the external `json.loads`
(`decode`): a missing file logs and calls `exit(1)`; the text is stripped
and repaired; a `JSONDecodeError` is caught and yields the empty Dataset;
any exception during construction propagates uncaught. -/
def from_json_file (decode : String → DecodeOutcome) : RawFile → Except Fail Dataset
  | .missing => .error .exitFatal
  | .present text =>
    match decode (remove_last_comma (remove_codeblock (pyStrip text))) with
    | .malformed => .ok ⟨[], [], []⟩
    | .json j =>
      match buildDataset j with
      | .ok ds => .ok ds
      | .error e => .error (.pyError e)

/-- C5 (amended): every predicted input whose text fails JSON decoding
after the best-effort repair (code-fence stripping, trailing-comma
removal) is recovered locally as an empty Dataset with zero entities and
zero relations; a decoded input that does not match the expected
structure instead raises during construction. -/
theorem C5_malformed_recovers (decode : String → DecodeOutcome) (t : String)
    (h : decode (remove_last_comma (remove_codeblock (pyStrip t))) = .malformed) :
    from_json_file decode (.present t) = .ok ⟨[], [], []⟩ := by
  simp only [from_json_file, h]

/-- `standard_type_similarity`. -/
def standard_type_similarity (r : MergedRelation) (t : String) : ℚ :=
  if r.match_type t then 1 else 0

/-- `relaxed_type_similarity`: 1.0 on match, else 0.9. -/
def relaxed_type_similarity (r : MergedRelation) (t : String) : ℚ :=
  if r.match_type t then 1 else mkRat 9 10

/-- `standard_arg_similarity`: `float(ref.match_name(name))`. -/
def standard_arg_similarity (me : MergedEntity) (nm : String) : Except PyErr ℚ :=
  (match_name me nm).map (fun b => if b then 1 else 0)

/-- `relaxed_arg_similarity`: `ref.jaccard_name(name)`. -/
def relaxed_arg_similarity (me : MergedEntity) (nm : String) : Except PyErr ℚ :=
  jaccard_name me nm

/-- `relation_similarity(type_sim, arg_sim)`: the product
`type_sim(ref, pred.type) * arg_sim(ref.source, pred.source) *
arg_sim(ref.target, pred.target)`, evaluated left to right. -/
def relation_similarity (tsim : MergedRelation → String → ℚ)
    (asim : MergedEntity → String → Except PyErr ℚ)
    (r : MergedRelation) (p : Relation) : Except PyErr ℚ :=
  match asim r.source p.source with
  | .error e => .error e
  | .ok a =>
    match asim r.target p.target with
    | .error e => .error e
    | .ok b => .ok (pyMul (pyMul (tsim r p.type_) a) b)

/-- The inner loop of `pred_redundant` for one reference relation: scan
the predictions (tagged with their position) in order; the first with
similarity exactly 1.0 sets `found`, and every later one with similarity
1.0 is yielded as redundant. -/
def predScanAux (simf : MergedRelation → Relation → Except PyErr ℚ) (r : MergedRelation) :
    List (Nat × Relation) → Bool → Except PyErr (List Nat)
  | [], _ => .ok []
  | (i, p) :: rest, found =>
    match simf r p with
    | .error e => .error e
    | .ok s =>
      if s = 1 then
        if found then
          match predScanAux simf r rest true with
          | .error e => .error e
          | .ok ys => .ok (i :: ys)
        else predScanAux simf r rest true
      else predScanAux simf r rest found

/-- `pred_redundant(ref, pred)`: always uses the strict type and strict
argument similarity, whatever mode the evaluation runs in.  Predictions
are identified by their index (Python collects the yielded `Relation`
objects in a `set` keyed by object identity). -/
def pred_redundant : List MergedRelation → List Relation → Except PyErr (List Nat)
  | [], _ => .ok []
  | r :: rs, preds =>
    match predScanAux (relation_similarity standard_type_similarity standard_arg_similarity)
        r preds.enum false with
    | .error e => .error e
    | .ok ys =>
      match pred_redundant rs preds with
      | .error e => .error e
      | .ok zs => .ok (ys ++ zs)

/-- `pred_rels = [p for p in pred.relations if p not in redundant]`, with
object identity rendered as list position. -/
def dropRedundant (preds : List Relation) (idxs : List Nat) : List Relation :=
  (preds.enum.filter (fun ip => decide (ip.1 ∉ idxs))).map Prod.snd

/-- Modelled from the spec: `Pair` from the external `evaluate.pairing`
module — an optional reference relation and an optional predicted
relation (referenced by index into the respective lists) plus the
similarity score that justified the pairing, 0 if one side is absent. -/
structure Pair where
  ref? : Option Nat
  pred? : Option Nat
  score : ℚ
deriving DecidableEq, Repr

/-- Modelled from the spec: enumeration of every one-to-one partial
matching pairing reference indices `ris` (in order) with distinct
available predicted indices from `avail`. -/
def matchingsAux : List Nat → List Nat → List (List (Nat × Nat))
  | [], _ => [[]]
  | r :: rs, avail =>
    matchingsAux rs avail
    ++ avail.bind (fun p => (matchingsAux rs (avail.erase p)).map (fun m => (r, p) :: m))

/-- Total similarity of a matching. -/
def matchWeight (w : Nat → Nat → ℚ) (m : List (Nat × Nat)) : ℚ :=
  m.foldl (fun acc rp => pyAdd acc (w rp.1 rp.2)) 0

/-- Keep the better of the current best matching and a candidate. -/
def pickStep (w : Nat → Nat → ℚ) (best m : List (Nat × Nat)) : List (Nat × Nat) :=
  if matchWeight w best < matchWeight w m then m else best

/-- First matching of maximal total similarity in a list of candidates. -/
def pickBest (w : Nat → Nat → ℚ) (l : List (List (Nat × Nat))) : List (Nat × Nat) :=
  l.foldl (pickStep w) []

/-- Modelled from the spec: the optimal assignment chosen by
`MunkresPairing` — a maximum-total-similarity one-to-one matching,
realized by exhaustive search over all matchings. -/
def chosenMatching (R P : Nat) (w : Nat → Nat → ℚ) : List (Nat × Nat) :=
  pickBest w (matchingsAux (List.range R) (List.range P))

/-- Modelled from the spec: `MunkresPairing.get_pairs` — emit the matched
pairs with their similarity, then every unmatched reference relation and
every unmatched predicted relation as a one-sided `Pair` with score 0. -/
def get_pairs (R P : Nat) (w : Nat → Nat → ℚ) : List Pair :=
  let best := chosenMatching R P w
  best.map (fun rp => ⟨some rp.1, some rp.2, w rp.1 rp.2⟩)
  ++ ((List.range R).filter (fun r => decide (r ∉ best.map Prod.fst))).map
      (fun r => ⟨some r, none, 0⟩)
  ++ ((List.range P).filter (fun p => decide (p ∉ best.map Prod.snd))).map
      (fun p => ⟨none, some p, 0⟩)

/-- A true positive under the strict-mode threshold the script runs with:
both sides present and similarity exactly 1.0. -/
def isTP (pr : Pair) : Bool :=
  pr.ref?.isSome && pr.pred?.isSome && decide (pr.score = 1)

/-- Exact division of counts, raising `ZeroDivisionError` on a zero
denominator. -/
def divQ (num den : Nat) : Except PyErr ℚ :=
  if den = 0 then .error .zeroDivisionError else .ok (mkRat num den)

/-- Division of rationals, raising `ZeroDivisionError` on zero. -/
def divQQ (a b : ℚ) : Except PyErr ℚ :=
  if b = 0 then .error .zeroDivisionError else .ok (a / b)

/-- Modelled from the spec: `BaseScores` from the external
`evaluate.scoring` module — true/false positive and false negative counts
over the pairs, and precision `TP/(TP+FP)`, recall `TP/(TP+FN)`,
`F1 = 2PR/(P+R)`, each division raising `ZeroDivisionError` on a zero
denominator (`main` catches that exception). -/
structure BaseScores where
  tp : Nat
  fp : Nat
  fn : Nat
  precision : ℚ
  recall_ : ℚ
  f1 : ℚ
deriving DecidableEq, Repr

/-- Modelled from the spec: construction of `BaseScores`. -/
def mkBaseScores (pairs : List Pair) : Except PyErr BaseScores :=
  let tp := pairs.countP isTP
  let fp := pairs.countP (fun pr => pr.pred?.isSome && !(isTP pr))
  let fn := pairs.countP (fun pr => pr.ref?.isSome && !(isTP pr))
  match divQ tp (tp + fp) with
  | .error e => .error e
  | .ok p =>
    match divQ tp (tp + fn) with
    | .error e => .error e
    | .ok r =>
      match divQQ (pyMul (pyMul 2 p) r) (pyAdd p r) with
      | .error e => .error e
      | .ok f => .ok ⟨tp, fp, fn, p, r, f⟩

/-- Modelled from the spec: `IEScores` — the duplicate-tolerant variant.
With a one-to-one pairing every couple is a singleton, so the adjusted
precision and recall coincide with the base ones and `f_score` is their
harmonic mean, again raising `ZeroDivisionError` on 0/0. -/
structure IEScores where
  f_score : ℚ
deriving DecidableEq, Repr

/-- Modelled from the spec: construction of `IEScores` from the pairs and
the base scores (`tp_attr='couples'`). -/
def mkIEScores (_pairs : List Pair) (base : BaseScores) : Except PyErr IEScores :=
  match divQQ (pyMul (pyMul 2 base.precision) base.recall_) (pyAdd base.precision base.recall_) with
  | .error e => .error e
  | .ok f => .ok ⟨f⟩

/-- The similarity matrix over reference and (filtered) predicted
relations; any exception from a similarity evaluation propagates. -/
def simMatrix (simf : MergedRelation → Relation → Except PyErr ℚ)
    (refs : List MergedRelation) (preds : List Relation) : Except PyErr (List (List ℚ)) :=
  refs.mapM (fun r => preds.mapM (fun p => simf r p))

/-- Weight lookup in the similarity matrix. -/
def matrixW (mtx : List (List ℚ)) : Nat → Nat → ℚ :=
  fun i j => ((mtx.get? i).bind (fun row => row.get? j)).getD 0

/-- The pair-producing prefix of `evaluate`: redundancy filter (always
strict), then the optimal pairing over the filtered predictions. -/
def evalPairs (refds : MergedRefDataset) (pred : Dataset)
    (tsim : MergedRelation → String → ℚ)
    (asim : MergedEntity → String → Except PyErr ℚ) : Except PyErr (List Pair) :=
  match pred_redundant refds.relations pred.relations with
  | .error e => .error e
  | .ok idxs =>
    match simMatrix (relation_similarity tsim asim) refds.relations
        (dropRedundant pred.relations idxs) with
    | .error e => .error e
    | .ok mtx =>
      .ok (get_pairs refds.relations.length (dropRedundant pred.relations idxs).length
            (matrixW mtx))

/-- `evaluate(ref, pred, type_sim, arg_sim)`. -/
def evaluate (refds : MergedRefDataset) (pred : Dataset)
    (tsim : MergedRelation → String → ℚ)
    (asim : MergedEntity → String → Except PyErr ℚ) :
    Except PyErr (BaseScores × IEScores × List Pair) :=
  match evalPairs refds pred tsim asim with
  | .error e => .error e
  | .ok pairs =>
    match mkBaseScores pairs with
    | .error e => .error e
    | .ok base =>
      match mkIEScores pairs base with
      | .error e => .error e
      | .ok ie => .ok (base, ie, pairs)

/-- The `try/except ZeroDivisionError` of `main` around `evaluate`, run
with the strict similarities (as in the script): a `ZeroDivisionError`
is logged and reported as score 0.0, anything else propagates. -/
def evalCatch (refds : MergedRefDataset) (pred : Dataset) : Except PyErr ℚ :=
  match evaluate refds pred standard_type_similarity standard_arg_similarity with
  | .ok (_, ie, _) => .ok ie.f_score
  | .error .zeroDivisionError => .ok 0
  | .error e => .error e

/-- `main(ref_fn, pred_fn)`: read and canonicalize the reference, read
the prediction (both with `Dataset.from_json_file`, whose missing-file
branch calls `exit(1)`), then evaluate under the catch. -/
def mainModel (decode : String → DecodeOutcome) (refFile predFile : RawFile) :
    Except Fail ℚ :=
  match from_json_file decode refFile with
  | .error f => .error f
  | .ok refRaw =>
    match merge_ref refRaw with
    | .error e => .error (.pyError e)
    | .ok refds =>
      match from_json_file decode predFile with
      | .error f => .error f
      | .ok predDs =>
        match evalCatch refds predDs with
        | .ok q => .ok q
        | .error e => .error (.pyError e)

/-- Validity of a matching relative to reference and available predicted
index pools: one-to-one on both sides, drawing only from the pools. -/
def ValidFor (ris avail : List Nat) (m : List (Nat × Nat)) : Prop :=
  (m.map Prod.fst).Nodup ∧ (∀ a ∈ m.map Prod.fst, a ∈ ris)
  ∧ (m.map Prod.snd).Nodup ∧ (∀ b ∈ m.map Prod.snd, b ∈ avail)

/-- Count of pairs naming reference index `i`. -/
def refCount (prs : List Pair) (i : Nat) : Nat :=
  prs.countP (fun pr => decide (pr.ref? = some i))

/-- Count of pairs naming predicted index `j`. -/
def predCount (prs : List Pair) (j : Nat) : Nat :=
  prs.countP (fun pr => decide (pr.pred? = some j))

/-- The optimal-versus-greedy weight matrix of the specification's test
property: sim(R1,P1)=0.9, sim(R1,P2)=1, sim(R2,P1)=1, sim(R2,P2)=0. -/
def exW : Nat → Nat → ℚ := fun i j =>
  if i == 0 && j == 0 then mkRat 9 10
  else if i == 0 && j == 1 then 1
  else if i == 1 && j == 0 then 1 else 0

theorem pyMul_eq (a b : ℚ) : pyMul a b = a * b := by
  rw [pyMul, Rat.mkRat_eq_div]
  push_cast
  conv_rhs => rw [← Rat.num_div_den a, ← Rat.num_div_den b]
  rw [div_mul_div_comm]

theorem pyAdd_eq (a b : ℚ) : pyAdd a b = a + b := by
  rw [pyAdd, Rat.mkRat_eq_div]
  push_cast
  conv_rhs => rw [← Rat.num_div_den a, ← Rat.num_div_den b]
  rw [div_add_div]
  · ring_nf
  · positivity
  · positivity

theorem alignedOverlap_le_min (seq1 seq2 : List String) (shift : Int) :
    alignedOverlap seq1 seq2 shift ≤ min seq1.length seq2.length := by
  have h1 : (seq1.drop (-shift).toNat).length ≤ seq1.length := by
    rw [List.length_drop]; omega
  have h2 : (seq2.drop shift.toNat).length ≤ seq2.length := by
    rw [List.length_drop]; omega
  simp only [alignedOverlap]
  split
  · omega
  · omega

theorem jaccardStep_eq_max (seq1 seq2 : List String) (b : Nat) (shift : Int) :
    jaccardStep seq1 seq2 b shift = max b (alignedOverlap seq1 seq2 shift) := by
  simp only [jaccardStep, alignedOverlap]
  split
  next hcond =>
    rw [if_pos hcond.2]
    omega
  next hcond =>
    split
    next heq =>
      have hb : ¬ b < min (seq1.drop (-shift).toNat).length (seq2.drop shift.toNat).length :=
        fun hlt => hcond ⟨hlt, heq⟩
      omega
    next => omega

theorem bestAlignedOverlap_le_min (seq1 seq2 : List String) :
    bestAlignedOverlap seq1 seq2 ≤ min seq1.length seq2.length := by
  unfold bestAlignedOverlap
  have step : ∀ (l : List Int) (b : Nat), b ≤ min seq1.length seq2.length →
      l.foldl (fun b shift => max b (alignedOverlap seq1 seq2 shift)) b
        ≤ min seq1.length seq2.length := by
    intro l
    induction l with
    | nil => intro b hb; exact hb
    | cons x xs ih =>
      intro b hb
      exact ih _ (max_le hb (alignedOverlap_le_min seq1 seq2 x))
  exact step _ 0 (Nat.zero_le _)

theorem foldl_jaccardStep_eq (seq1 seq2 : List String) :
    ∀ (l : List Int) (b : Nat),
      l.foldl (jaccardStep seq1 seq2) b
        = l.foldl (fun b shift => max b (alignedOverlap seq1 seq2 shift)) b := by
  intro l
  induction l with
  | nil => intro b; rfl
  | cons x xs ih =>
    intro b
    rw [List.foldl_cons, List.foldl_cons, jaccardStep_eq_max, ih]

theorem jaccard_seq_eq_amended (seq1 seq2 : List String) (h : seq1 ≠ [] ∨ seq2 ≠ []) :
    jaccard_seq seq1 seq2 = .ok (amendedSeqScore seq1 seq2) := by
  have hnz : seq1.length + seq2.length - bestAlignedOverlap seq1 seq2 ≠ 0 := by
    have h1 := bestAlignedOverlap_le_min seq1 seq2
    have h2 : 0 < seq1.length ∨ 0 < seq2.length := by
      rcases h with h | h
      · exact Or.inl (List.length_pos.mpr h)
      · exact Or.inr (List.length_pos.mpr h)
    omega
  simp only [jaccard_seq, foldl_jaccardStep_eq]
  have hb : (seqShifts seq1.length seq2.length).foldl
      (fun b shift => max b (alignedOverlap seq1 seq2 shift)) 0 = bestAlignedOverlap seq1 seq2 := rfl
  rw [hb, if_neg hnz]
  rfl

theorem mapM_ok {α β : Type} (f : α → Except PyErr β) (g : α → β) :
    ∀ (l : List α), (∀ x ∈ l, f x = .ok (g x)) → l.mapM f = .ok (l.map g) := by
  intro l
  induction l with
  | nil => intro _; rfl
  | cons x xs ih =>
    intro hall
    rw [List.mapM_cons, hall x (List.mem_cons_self _ _), List.map_cons]
    have := ih (fun y hy => hall y (List.mem_cons_of_mem _ hy))
    rw [this]
    rfl

/-- C1 (amended): for every merged reference entity with at least one
surface name and every candidate name that is non-empty and still has a
token after quote-stripping and lowercasing, the relaxed argument
similarity `jaccard_name` strips quotes, lowercases and tokenizes by
whitespace, considers every integer shift in `[1-n1, n2-1]`, takes as `m`
the length of the full aligned overlap at that shift counted only when the
entire overlap matches token-by-token (not the longest matching prefix),
and returns `max(m) / (n1 + n2 - max(m))`, maximised over all surface
names of the entity. -/
theorem C1_token_alignment (me : MergedEntity) (pname : String)
    (hn : me.names ≠ []) (hp : pname ≠ "")
    (ht : pySplit (pyLower (stripQuotes pname)) ≠ []) :
    jaccard_name me pname = .ok (amendedArgScore me pname) := by
  have hmap := mapM_ok
    (fun n => jaccard_seq (pySplit (pyLower n)) (pySplit (pyLower (stripQuotes pname))))
    (fun n => amendedSeqScore (pySplit (pyLower n)) (pySplit (pyLower (stripQuotes pname))))
    me.names
    (fun n _ => jaccard_seq_eq_amended _ _ (Or.inr ht))
  simp only [jaccard_name, amendedArgScore, if_neg hp]
  rw [hmap]
  cases hnames : me.names with
  | nil => exact absurd hnames hn
  | cons n ns =>
    simp only [hnames, List.map_cons, listMax]
    rfl

/-- C1 witness: the claim's own worked example, tokens `[a,b,c]` against
`[b,c,d]`, scores `2/(3+3-2) = 1/2` under the amended reading, and the
code agrees. -/
theorem C1_token_alignment_witness :
    jaccard_name ⟨"T", [some "e"], ["a b c"], "name", "a b c"⟩ "b c d"
      = .ok (amendedArgScore ⟨"T", [some "e"], ["a b c"], "name", "a b c"⟩ "b c d")
    ∧ amendedArgScore ⟨"T", [some "e"], ["a b c"], "name", "a b c"⟩ "b c d" = mkRat 1 2 :=
  ⟨C1_token_alignment _ _ (by decide) (by decide) (by decide), by decide⟩

/-- C1 counterexample: reference surface name `a b` against candidate
`a c`.  At shift 0 the literal token-by-token match starting at the aligned
position has length 1 (`a`), so the claim's formula gives `1/(2+2-1) = 1/3`;
the code only counts a shift when the whole aligned overlap matches, finds
no such shift, and returns `0`. -/
theorem C1_counterexample :
    jaccard_name ⟨"T", [some "e"], ["a b"], "name", "a b"⟩ "a c" = .ok 0
    ∧ claimedArgScore ⟨"T", [some "e"], ["a b"], "name", "a b"⟩ "a c" = mkRat 1 3
    ∧ (Except.ok (0 : ℚ) : Except PyErr ℚ) ≠ .ok (mkRat 1 3) := by
  refine ⟨by decide, by decide, by decide⟩

/-- C10: both argument-similarity operations are partial on the empty
candidate name: `match_name` and `jaccard_name` read `pred_name[0]`
unconditionally during quote-stripping, so the empty string raises
`IndexError` instead of returning a no-match or zero score. -/
theorem C10_empty_candidate_raises (me : MergedEntity) :
    match_name me "" = .error .indexError ∧ jaccard_name me "" = .error .indexError := by
  constructor
  · rfl
  · rfl

/-- C2 counterexample: a dataset with one entity `x` and two relations
`Cause(x, x)` and `Causes(x, x)`.  The two raw types normalize to the same
canonical label `causes`, and source/target resolve to the same merged
entity, so the claim says they collapse into one MergedRelation; the code
keys the dedup on the raw (unnormalized) type string and keeps both. -/
theorem C2_counterexample :
    normalize_type "Cause" = normalize_type "Causes"
    ∧ merge_ref ⟨[⟨some "x", "Bacteria", "n", "name", "n"⟩],
                 [⟨"Cause", "x", "x"⟩, ⟨"Causes", "x", "x"⟩], []⟩
      = .ok ⟨[⟨"Bacteria", [some "x"], ["n"], "name", "n"⟩],
             [⟨"Cause", ⟨"Bacteria", [some "x"], ["n"], "name", "n"⟩,
                        ⟨"Bacteria", [some "x"], ["n"], "name", "n"⟩⟩,
              ⟨"Causes", ⟨"Bacteria", [some "x"], ["n"], "name", "n"⟩,
                         ⟨"Bacteria", [some "x"], ["n"], "name", "n"⟩⟩]⟩ := by
  decide

theorem mergeRelsAux_dedup (m : List (Option String × MergedEntity)) :
    ∀ (rels : List Relation) (seen : List RelKey) (out : List MergedRelation),
      mergeRelsAux m rels seen = .ok out →
      (out.map mrKey).Nodup
      ∧ (∀ k ∈ out.map mrKey, k ∉ seen)
      ∧ ∀ r ∈ rels, ∃ s t, getEnt m r.source = .ok s ∧ getEnt m r.target = .ok t
          ∧ (((r.type_, s.key, t.key) : RelKey) ∈ seen
             ∨ ((r.type_, s.key, t.key) : RelKey) ∈ out.map mrKey) := by
  intro rels
  induction rels with
  | nil =>
    intro seen out h
    simp only [mergeRelsAux] at h
    injection h with h'
    subst h'
    refine ⟨List.nodup_nil, ?_, ?_⟩ <;> simp
  | cons r rs ih =>
    intro seen out h
    simp only [mergeRelsAux] at h
    cases hs : getEnt m r.source with
    | error e => simp [hs] at h
    | ok s =>
      cases ht : getEnt m r.target with
      | error e => simp [hs, ht] at h
      | ok t =>
        simp only [hs, ht] at h
        by_cases hk : ((r.type_, s.key, t.key) : RelKey) ∈ seen
        · rw [if_pos hk] at h
          obtain ⟨h1, h2, h3⟩ := ih seen out h
          refine ⟨h1, h2, ?_⟩
          intro r' hr'
          rcases List.mem_cons.mp hr' with rfl | hr'
          · exact ⟨s, t, hs, ht, Or.inl hk⟩
          · exact h3 r' hr'
        · rw [if_neg hk] at h
          cases hrest : mergeRelsAux m rs ((r.type_, s.key, t.key) :: seen) with
          | error e => rw [hrest] at h; simp at h
          | ok rest =>
            rw [hrest] at h
            injection h with h'
            subst h'
            obtain ⟨h1, h2, h3⟩ := ih _ rest hrest
            refine ⟨?_, ?_, ?_⟩
            · rw [List.map_cons]
              refine List.nodup_cons.mpr ⟨?_, h1⟩
              intro hmem
              exact (h2 _ hmem) (List.mem_cons_self _ _)
            · intro k' hk'
              rw [List.map_cons] at hk'
              rcases List.mem_cons.mp hk' with rfl | hk'
              · exact hk
              · intro hc
                exact (h2 _ hk') (List.mem_cons_of_mem _ hc)
            · intro r' hr'
              rcases List.mem_cons.mp hr' with rfl | hr'
              · refine ⟨s, t, hs, ht, Or.inr ?_⟩
                rw [List.map_cons]
                exact List.mem_cons_self _ _
              · obtain ⟨s', t', hs', ht', hor⟩ := h3 r' hr'
                refine ⟨s', t', hs', ht', ?_⟩
                rcases hor with hin | hin
                · rcases List.mem_cons.mp hin with heq | hin
                  · right
                    rw [List.map_cons, heq]
                    exact List.mem_cons_self _ _
                  · left
                    exact hin
                · right
                  rw [List.map_cons]
                  exact List.mem_cons_of_mem _ hin

/-- C2 (amended): during reference relation canonicalization the
structural dedup key of a relation is the raw (unnormalized) relation type
together with the identity keys of the source and target clusters, and
only the first relation seen per such key is kept: the output keys are
duplicate-free and every resolvable input relation's key is represented. -/
theorem C2_relation_dedup (cs : List MergedEntity) (rels : List Relation)
    (out : List MergedRelation) (h : merge_ref_relations cs rels = .ok out) :
    (out.map mrKey).Nodup
    ∧ ∀ r ∈ rels, ∃ s t,
        getEnt (buildEntIdMap cs) r.source = .ok s
        ∧ getEnt (buildEntIdMap cs) r.target = .ok t
        ∧ ((r.type_, s.key, t.key) : RelKey) ∈ out.map mrKey := by
  obtain ⟨h1, _h2, h3⟩ := mergeRelsAux_dedup (buildEntIdMap cs) rels [] out h
  refine ⟨h1, ?_⟩
  intro r hr
  obtain ⟨s, t, hs, ht, hor⟩ := h3 r hr
  rcases hor with hin | hin
  · exact absurd hin (List.not_mem_nil _)
  · exact ⟨s, t, hs, ht, hin⟩

/-- C2 witness: one cluster, two structurally identical raw relations;
they resolve, dedup to a single merged relation, and the key coverage and
duplicate-freeness follow by applying the dedup theorem. -/
theorem C2_relation_dedup_witness :
    (([⟨"R", ⟨"T", [some "x"], ["n"], "name", "n"⟩, ⟨"T", [some "x"], ["n"], "name", "n"⟩⟩] :
        List MergedRelation).map mrKey).Nodup
    ∧ ∀ r ∈ ([⟨"R", "x", "x"⟩, ⟨"R", "x", "x"⟩] : List Relation), ∃ s t,
        getEnt (buildEntIdMap [⟨"T", [some "x"], ["n"], "name", "n"⟩]) r.source = .ok s
        ∧ getEnt (buildEntIdMap [⟨"T", [some "x"], ["n"], "name", "n"⟩]) r.target = .ok t
        ∧ ((r.type_, s.key, t.key) : RelKey)
            ∈ ([⟨"R", ⟨"T", [some "x"], ["n"], "name", "n"⟩, ⟨"T", [some "x"], ["n"], "name", "n"⟩⟩] :
                List MergedRelation).map mrKey :=
  C2_relation_dedup [⟨"T", [some "x"], ["n"], "name", "n"⟩] _ _ (by decide)

theorem lookupA_updateA_self [DecidableEq α] (m : List (α × β)) (k : α) (v : β) :
    lookupA (updateA m k v) k = some v := by
  induction m with
  | nil => simp [updateA, lookupA]
  | cons p ps ih =>
    by_cases hp : p.1 = k
    · simp [updateA, hp, lookupA]
    · simp [updateA, hp, lookupA, ih]

theorem lookupA_updateA_ne [DecidableEq α] (m : List (α × β)) (k k' : α) (v : β)
    (h : k' ≠ k) : lookupA (updateA m k v) k' = lookupA m k' := by
  induction m with
  | nil =>
    rw [updateA, lookupA, lookupA, if_neg (fun hh : k = k' => h hh.symm)]
    rfl
  | cons p ps ih =>
    by_cases hp : p.1 = k
    · rw [updateA]
      rw [if_pos hp]
      rw [lookupA, lookupA]
      rw [if_neg (fun hh : k = k' => h hh.symm), if_neg (fun hh : p.1 = k' => h (hp ▸ hh).symm)]
    · rw [updateA]
      rw [if_neg hp]
      rw [lookupA, lookupA]
      by_cases hp' : p.1 = k'
      · rw [if_pos hp', if_pos hp']
      · rw [if_neg hp', if_neg hp', ih]

theorem foldl_invariant {α β : Type} (f : β → α → β) (P : β → Prop)
    (hstep : ∀ b a, P b → P (f b a)) :
    ∀ (l : List α) (b : β), P b → P (l.foldl f b) := by
  intro l
  induction l with
  | nil => intro b hb; exact hb
  | cons x xs ih => intro b hb; exact ih _ (hstep _ _ hb)

theorem foldl_establish {α β : Type} (f : β → α → β) (P : β → Prop)
    (hstep : ∀ b a, P b → P (f b a)) (x : α) (hx : ∀ b, P (f b x)) :
    ∀ (l : List α), x ∈ l → ∀ b, P (l.foldl f b) := by
  intro l
  induction l with
  | nil => intro hmem; exact absurd hmem (List.not_mem_nil _)
  | cons y ys ih =>
    intro hmem b
    rcases List.mem_cons.mp hmem with rfl | hmem
    · exact foldl_invariant f P hstep ys _ (hx b)
    · exact ih hmem _

/-- After a cluster creation registers the equivalence sets of its creating
entity, every id sharing a set with the creator points at the new cluster. -/
theorem registerEq_lookup (eqs : List (List String)) (i1 i2 : String) (idx : Nat)
    (s : List String) (hs : s ∈ eqs) (hi1 : i1 ∈ s) (hi2 : i2 ∈ s) :
    lookupA (registerEq eqs (some i1) idx []) i2 = some idx := by
  have hreg : registerEq eqs (some i1) idx []
      = eqs.foldl (fun acc eqset =>
          if i1 ∈ eqset then eqset.foldl (fun a x => updateA a x idx) acc else acc) [] := rfl
  set g : List (String × Nat) → String → List (String × Nat) := fun a x => updateA a x idx with hg
  set F : List (String × Nat) → List String → List (String × Nat) :=
    fun acc eqset => if i1 ∈ eqset then eqset.foldl g acc else acc with hF
  have hPvalStep : ∀ a x, (∀ v, lookupA a i2 = some v → v = idx) →
      (∀ v, lookupA (g a x) i2 = some v → v = idx) := by
    intro a x hP v hv
    by_cases hx : i2 = x
    · rw [hg] at hv
      simp only at hv
      rw [hx, lookupA_updateA_self] at hv
      injection hv with hv'
      exact hv'.symm
    · rw [hg] at hv
      simp only at hv
      rw [lookupA_updateA_ne _ _ _ _ hx] at hv
      exact hP v hv
  have hPdefStep : ∀ a x, (lookupA a i2).isSome → (lookupA (g a x) i2).isSome := by
    intro a x hP
    by_cases hx : i2 = x
    · rw [hg]
      simp only
      rw [hx, lookupA_updateA_self]
      rfl
    · rw [hg]
      simp only
      rw [lookupA_updateA_ne _ _ _ _ hx]
      exact hP
  have hFval : ∀ acc eqset, (∀ v, lookupA acc i2 = some v → v = idx) →
      (∀ v, lookupA (F acc eqset) i2 = some v → v = idx) := by
    intro acc eqset hacc
    rw [hF]
    simp only
    split
    · exact foldl_invariant g _ hPvalStep eqset acc hacc
    · exact hacc
  have hFdef : ∀ acc eqset, (lookupA acc i2).isSome → (lookupA (F acc eqset) i2).isSome := by
    intro acc eqset hacc
    rw [hF]
    simp only
    split
    · exact foldl_invariant g _ hPdefStep eqset acc hacc
    · exact hacc
  have hdef : (lookupA (eqs.foldl F []) i2).isSome := by
    refine foldl_establish F _ hFdef s ?_ eqs hs []
    intro acc
    rw [hF]
    simp only
    rw [if_pos hi1]
    refine foldl_establish g _ hPdefStep i2 ?_ s hi2 acc
    intro a
    rw [hg]
    simp only
    rw [lookupA_updateA_self]
    rfl
  have hval : ∀ v, lookupA (eqs.foldl F []) i2 = some v → v = idx := by
    refine foldl_invariant F _ hFval eqs [] ?_
    intro v hv
    simp [lookupA] at hv
  rw [hreg]
  cases hlook : lookupA (eqs.foldl F []) i2 with
  | none => rw [hlook] at hdef; cases hdef
  | some v => rw [hval v hlook]

theorem mem_insertNew_self [DecidableEq α] (l : List α) (a : α) : a ∈ insertNew l a := by
  unfold insertNew
  split
  next h => exact h
  next => exact List.mem_append_right _ (List.mem_singleton.mpr rfl)

theorem mem_insertNew_of_mem [DecidableEq α] {l : List α} {x : α} (a : α) (h : x ∈ l) :
    x ∈ insertNew l a := by
  unfold insertNew
  split
  · exact h
  · exact List.mem_append_left _ h

/-- C6 counterexample: equivalence set `{e1, e2}`, entities in order
`e1` (key A), `e3` (key B), `e2` (key B), with nothing before `e1` sharing
either key.  The claim's side condition holds, yet `e2` merges into `e3`'s
cluster (its key is found first), not `e1`'s: the result has two clusters
and none contains both `e1` and `e2`. -/
theorem C6_counterexample :
    (merge_ref_entities ⟨[⟨some "e1", "T", "n1", "NCBI_Taxonomy", "A"⟩,
                          ⟨some "e3", "T", "n3", "NCBI_Taxonomy", "B"⟩,
                          ⟨some "e2", "T", "n2", "NCBI_Taxonomy", "B"⟩],
                         [], [["e1", "e2"]]⟩).length = 2
    ∧ ∀ c ∈ merge_ref_entities ⟨[⟨some "e1", "T", "n1", "NCBI_Taxonomy", "A"⟩,
                                 ⟨some "e3", "T", "n3", "NCBI_Taxonomy", "B"⟩,
                                 ⟨some "e2", "T", "n2", "NCBI_Taxonomy", "B"⟩],
                                [], [["e1", "e2"]]⟩,
        ¬(some "e1" ∈ c.ids ∧ some "e2" ∈ c.ids) := by
  decide

/-- C6 (amended): when `e1` and `e2` are the first two entities of the
dataset, some equivalence set contains both their ids, and their identity
keys differ, entity canonicalization merges them into a single
MergedEntity: creating `e1`'s cluster registers every id of its
equivalence sets, so `e2` joins that cluster despite its differing key. -/
theorem C6_equivalence_bridging (e1 e2 : Entity) (eqs : List (List String))
    (s : List String) (i1 i2 : String)
    (h1 : e1.id_ = some i1) (h2 : e2.id_ = some i2)
    (hs : s ∈ eqs) (hi1 : i1 ∈ s) (hi2 : i2 ∈ s)
    (hk : e1.key ≠ e2.key) :
    ∃ c ∈ merge_ref_entities ⟨[e1, e2], [], eqs⟩,
      e1.id_ ∈ c.ids ∧ e2.id_ ∈ c.ids := by
  have hst1 : mergeStep eqs ⟨[], [], []⟩ e1
      = ⟨[MergedEntity.ofEntity e1], [(e1.key, 0)], registerEq eqs (some i1) 0 []⟩ := by
    simp [mergeStep, lookupA, updateA, h1]
  have hlook : lookupA (registerEq eqs (some i1) 0 []) i2 = some 0 :=
    registerEq_lookup eqs i1 i2 0 s hs hi1 hi2
  have hmain : merge_ref_entities ⟨[e1, e2], [], eqs⟩
      = [(MergedEntity.ofEntity e1).add e2] := by
    unfold merge_ref_entities
    rw [show (⟨[e1, e2], [], eqs⟩ : Dataset).entities = [e1, e2] from rfl,
        show (⟨[e1, e2], [], eqs⟩ : Dataset).equivalences = eqs from rfl]
    rw [List.foldl_cons, List.foldl_cons, List.foldl_nil, hst1]
    simp [mergeStep, lookupA, hk, h2, hlook, updateAt]
  refine ⟨(MergedEntity.ofEntity e1).add e2, ?_, ?_, ?_⟩
  · rw [hmain]
    exact List.mem_singleton.mpr rfl
  · exact mem_insertNew_of_mem e2.id_ (List.mem_singleton.mpr rfl)
  · exact mem_insertNew_self _ _

/-- C6 witness: the bridging theorem applied to a concrete two-entity
dataset with differing normalization values and equivalence `[e1, e2]`. -/
theorem C6_equivalence_bridging_witness :
    ∃ c ∈ merge_ref_entities ⟨[⟨some "e1", "T", "n1", "NCBI_Taxonomy", "A"⟩,
                               ⟨some "e2", "T", "n2", "NCBI_Taxonomy", "B"⟩],
                              [], [["e1", "e2"]]⟩,
      (⟨some "e1", "T", "n1", "NCBI_Taxonomy", "A"⟩ : Entity).id_ ∈ c.ids
      ∧ (⟨some "e2", "T", "n2", "NCBI_Taxonomy", "B"⟩ : Entity).id_ ∈ c.ids :=
  C6_equivalence_bridging _ _ _ ["e1", "e2"] "e1" "e2" rfl rfl
    (List.mem_singleton.mpr rfl) (by decide) (by decide) (by decide)

theorem updateAt_length (f : α → α) (l : List α) :
    ∀ (i : Nat), (updateAt f i l).length = l.length := by
  induction l with
  | nil => intro i; cases i <;> rfl
  | cons x xs ih =>
    intro i
    cases i with
    | zero => rfl
    | succ n => simp [updateAt, ih n]

theorem updateAt_get? (f : α → α) (l : List α) :
    ∀ (i j : Nat),
      (updateAt f i l).get? j = if j = i then (l.get? j).map f else l.get? j := by
  induction l with
  | nil => intro i j; cases i <;> simp [updateAt]
  | cons x xs ih =>
    intro i j
    cases i with
    | zero =>
      cases j with
      | zero => simp [updateAt]
      | succ m => simp [updateAt]
    | succ n =>
      cases j with
      | zero => simp [updateAt]
      | succ m =>
        rw [show updateAt f (n + 1) (x :: xs) = x :: updateAt f n xs from rfl]
        rw [List.get?_cons_succ, List.get?_cons_succ, ih n m]
        by_cases hmn : m = n
        · rw [if_pos hmn, if_pos (by omega)]
        · rw [if_neg hmn, if_neg (by omega)]

theorem lookupA_mem [DecidableEq α] {m : List (α × β)} {k : α} {v : β}
    (h : lookupA m k = some v) : (k, v) ∈ m := by
  induction m with
  | nil => simp [lookupA] at h
  | cons p ps ih =>
    rw [lookupA] at h
    by_cases hp : p.1 = k
    · rw [if_pos hp] at h
      injection h with h'
      cases p with
      | mk a b =>
        simp only at hp h'
        rw [← hp, ← h']
        exact List.mem_cons_self _ _
    · rw [if_neg hp] at h
      exact List.mem_cons_of_mem _ (ih h)

theorem mem_updateA [DecidableEq α] {m : List (α × β)} {k : α} {v : β} :
    ∀ p ∈ updateA m k v, p ∈ m ∨ p = (k, v) := by
  induction m with
  | nil =>
    intro p hp
    rw [updateA] at hp
    right
    exact List.mem_singleton.mp hp
  | cons q qs ih =>
    intro p hp
    rw [updateA] at hp
    by_cases hq : q.1 = k
    · rw [if_pos hq] at hp
      rcases List.mem_cons.mp hp with rfl | hp
      · right; rfl
      · left; exact List.mem_cons_of_mem _ hp
    · rw [if_neg hq] at hp
      rcases List.mem_cons.mp hp with rfl | hp
      · left; exact List.mem_cons_self _ _
      · rcases ih p hp with h | h
        · left; exact List.mem_cons_of_mem _ h
        · right; exact h

theorem mem_registerEq {eqs : List (List String)} {id? : Option String} {idx : Nat}
    {m : List (String × Nat)} :
    ∀ p ∈ registerEq eqs id? idx m, p ∈ m ∨ p.2 = idx := by
  have hstepInner : ∀ (a : List (String × Nat)) (x : String),
      (∀ p ∈ a, p ∈ m ∨ p.2 = idx) → ∀ p ∈ updateA a x idx, p ∈ m ∨ p.2 = idx := by
    intro a x ha p hp
    rcases mem_updateA p hp with h | h
    · exact ha p h
    · right; rw [h]
  have hstepOuter : ∀ (acc : List (String × Nat)) (eqset : List String),
      (∀ p ∈ acc, p ∈ m ∨ p.2 = idx) →
      ∀ p ∈ (match id? with
             | some i => if i ∈ eqset then eqset.foldl (fun a x => updateA a x idx) acc else acc
             | none => acc), p ∈ m ∨ p.2 = idx := by
    intro acc eqset hacc
    cases id? with
    | none => exact hacc
    | some i =>
      by_cases hi : i ∈ eqset
      · simp only [hi, if_true]
        exact foldl_invariant _ (fun a => ∀ p ∈ a, p ∈ m ∨ p.2 = idx) hstepInner eqset acc hacc
      · simp only [hi, if_false]
        exact hacc
  unfold registerEq
  exact foldl_invariant _ (fun acc => ∀ p ∈ acc, p ∈ m ∨ p.2 = idx) hstepOuter eqs m
    (fun p hp => Or.inl hp)

theorem mem_insertNew [DecidableEq α] {l : List α} {a x : α} (h : x ∈ insertNew l a) :
    x ∈ l ∨ x = a := by
  unfold insertNew at h
  split at h
  · left; exact h
  · rcases List.mem_append.mp h with h | h
    · left; exact h
    · right; exact List.mem_singleton.mp h

theorem insertNew_head? [DecidableEq α] {l : List α} (a : α) (h : l ≠ []) :
    (insertNew l a).head? = l.head? := by
  unfold insertNew
  split
  · rfl
  · cases l with
    | nil => exact absurd rfl h
    | cons y ys => rfl

theorem addToCluster_inv (processed : List Entity) (st : MergeState) (e : Entity) (i : Nat)
    (hinv : MergeInv processed st)
    (hfresh : ∀ e' ∈ processed, e'.id_ ≠ e.id_)
    (hi : i < st.clusters.length) :
    MergeInv (processed ++ [e])
      ⟨updateAt (fun c => c.add e) i st.clusters, st.entMap, st.eqidMap⟩ := by
  obtain ⟨hA, hB, hC, hD, hE⟩ := hinv
  obtain ⟨ci, hci⟩ : ∃ ci, st.clusters.get? i = some ci :=
    ⟨_, List.get?_eq_get hi⟩
  have hget : ∀ j, (updateAt (fun c => c.add e) i st.clusters).get? j
      = if j = i then (st.clusters.get? j).map (fun c => c.add e) else st.clusters.get? j :=
    updateAt_get? _ _ i
  have hAmem : ∀ c ∈ updateAt (fun c => c.add e) i st.clusters,
      ∀ x ∈ c.ids, ∃ e' ∈ processed ++ [e], e'.id_ = x := by
    intro c hc x hx
    obtain ⟨n, hn⟩ := List.mem_iff_get?.mp hc
    rw [hget n] at hn
    by_cases hni : n = i
    · rw [if_pos hni, hni, hci] at hn
      injection hn with hn'
      rw [← hn'] at hx
      rcases mem_insertNew hx with hx | hx
      · obtain ⟨e', he', heq⟩ := hA ci (List.get?_mem hci) x hx
        exact ⟨e', List.mem_append_left _ he', heq⟩
      · exact ⟨e, List.mem_append_right _ (List.mem_singleton.mpr rfl), hx.symm⟩
    · rw [if_neg hni] at hn
      obtain ⟨e', he', heq⟩ := hA c (List.get?_mem hn) x hx
      exact ⟨e', List.mem_append_left _ he', heq⟩
  refine ⟨hAmem, ?_, ?_, ?_, ?_⟩
  · intro e' he'
    rcases List.mem_append.mp he' with he' | he'
    · obtain ⟨n, c, hn, hmem, huniq⟩ := hB e' he'
      by_cases hni : n = i
      · subst hni
        refine ⟨n, ci.add e, ?_, ?_, ?_⟩
        · rw [hget n, if_pos rfl, hci]; rfl
        · rw [hci] at hn
          injection hn with hn'
          rw [hn']
          exact mem_insertNew_of_mem _ hmem
        · intro m c' hm' hmem'
          rw [hget m] at hm'
          by_cases hmi : m = n
          · exact hmi
          · rw [if_neg hmi] at hm'
            exact huniq m c' hm' hmem'
      · refine ⟨n, c, ?_, hmem, ?_⟩
        · rw [hget n, if_neg hni]; exact hn
        · intro m c' hm' hmem'
          rw [hget m] at hm'
          by_cases hmi : m = i
          · rw [if_pos hmi, hmi, hci] at hm'
            injection hm' with hm''
            rw [← hm''] at hmem'
            rcases mem_insertNew hmem' with hmem'' | hmem''
            · rw [hmi]; exact huniq i ci hci hmem''
            · exact absurd hmem'' (hfresh e' he')
          · rw [if_neg hmi] at hm'
            exact huniq m c' hm' hmem'
    · have heq : e' = e := List.mem_singleton.mp he'
      subst heq
      refine ⟨i, ci.add e', ?_, mem_insertNew_self _ _, ?_⟩
      · rw [hget i, if_pos rfl, hci]; rfl
      · intro m c' hm' hmem'
        rw [hget m] at hm'
        by_cases hmi : m = i
        · exact hmi
        · rw [if_neg hmi] at hm'
          obtain ⟨e'', he'', heq''⟩ := hA c' (List.get?_mem hm') e'.id_ hmem'
          exact absurd heq'' (hfresh e'' he'')
  · intro c hc
    obtain ⟨n, hn⟩ := List.mem_iff_get?.mp hc
    rw [hget n] at hn
    by_cases hni : n = i
    · rw [if_pos hni, hni, hci] at hn
      injection hn with hn'
      obtain ⟨e0, he0, hhead, ht, hnt, hnv⟩ := hC ci (List.get?_mem hci)
      have hne : ci.ids ≠ [] := by
        intro hnil
        rw [hnil] at hhead
        exact Option.noConfusion hhead
      refine ⟨e0, List.mem_append_left _ he0, ?_, ?_, ?_, ?_⟩
      · rw [← hn']
        show (insertNew ci.ids e.id_).head? = some e0.id_
        rw [insertNew_head? _ hne]
        exact hhead
      · rw [← hn']; exact ht
      · rw [← hn']; exact hnt
      · rw [← hn']; exact hnv
    · rw [if_neg hni] at hn
      obtain ⟨e0, he0, hrest⟩ := hC c (List.get?_mem hn)
      exact ⟨e0, List.mem_append_left _ he0, hrest⟩
  · intro p hp
    rw [updateAt_length]
    exact hD p hp
  · intro p hp
    rw [updateAt_length]
    exact hE p hp

theorem createCluster_inv (eqs : List (List String)) (processed : List Entity)
    (st : MergeState) (e : Entity)
    (hinv : MergeInv processed st)
    (hfresh : ∀ e' ∈ processed, e'.id_ ≠ e.id_) :
    MergeInv (processed ++ [e])
      ⟨st.clusters ++ [MergedEntity.ofEntity e],
       updateA st.entMap e.key st.clusters.length,
       registerEq eqs e.id_ st.clusters.length st.eqidMap⟩ := by
  obtain ⟨hA, hB, hC, hD, hE⟩ := hinv
  have hlen : (st.clusters ++ [MergedEntity.ofEntity e]).length = st.clusters.length + 1 := by
    rw [List.length_append]
    rfl
  have hgetNew : (st.clusters ++ [MergedEntity.ofEntity e]).get? st.clusters.length
      = some (MergedEntity.ofEntity e) := by
    rw [List.get?_append_right le_rfl]
    simp
  refine ⟨?_, ?_, ?_, ?_, ?_⟩
  · intro c hc x hx
    rcases List.mem_append.mp hc with hc | hc
    · obtain ⟨e', he', heq⟩ := hA c hc x hx
      exact ⟨e', List.mem_append_left _ he', heq⟩
    · have heq : c = MergedEntity.ofEntity e := List.mem_singleton.mp hc
      rw [heq] at hx
      have : x = e.id_ := List.mem_singleton.mp hx
      exact ⟨e, List.mem_append_right _ (List.mem_singleton.mpr rfl), this.symm⟩
  · intro e' he'
    rcases List.mem_append.mp he' with he' | he'
    · obtain ⟨n, c, hn, hmem, huniq⟩ := hB e' he'
      have hnlt : n < st.clusters.length := (List.get?_eq_some.mp hn).1
      refine ⟨n, c, ?_, hmem, ?_⟩
      · rw [List.get?_append hnlt]; exact hn
      · intro m c' hm' hmem'
        rcases Nat.lt_trichotomy m st.clusters.length with hmlt | hmeq | hmgt
        · rw [List.get?_append hmlt] at hm'
          exact huniq m c' hm' hmem'
        · rw [hmeq, hgetNew] at hm'
          injection hm' with hm''
          rw [← hm''] at hmem'
          have : e'.id_ = e.id_ := List.mem_singleton.mp hmem'
          exact absurd this (hfresh e' he')
        · rw [List.get?_append_right (Nat.le_of_lt hmgt)] at hm'
          have : m - st.clusters.length ≥ 1 := by omega
          rw [List.get?_eq_none.mpr (by simpa using this)] at hm'
          exact Option.noConfusion hm'
    · have heq : e' = e := List.mem_singleton.mp he'
      subst heq
      refine ⟨st.clusters.length, MergedEntity.ofEntity e', hgetNew,
        List.mem_singleton.mpr rfl, ?_⟩
      intro m c' hm' hmem'
      rcases Nat.lt_trichotomy m st.clusters.length with hmlt | hmeq | hmgt
      · rw [List.get?_append hmlt] at hm'
        obtain ⟨e'', he'', heq''⟩ := hA c' (List.get?_mem hm') e'.id_ hmem'
        exact absurd heq'' (hfresh e'' he'')
      · exact hmeq
      · rw [List.get?_append_right (Nat.le_of_lt hmgt)] at hm'
        have : m - st.clusters.length ≥ 1 := by omega
        rw [List.get?_eq_none.mpr (by simpa using this)] at hm'
        exact Option.noConfusion hm'
  · intro c hc
    rcases List.mem_append.mp hc with hc | hc
    · obtain ⟨e0, he0, hrest⟩ := hC c hc
      exact ⟨e0, List.mem_append_left _ he0, hrest⟩
    · have heq : c = MergedEntity.ofEntity e := List.mem_singleton.mp hc
      subst heq
      exact ⟨e, List.mem_append_right _ (List.mem_singleton.mpr rfl), rfl, rfl, rfl, rfl⟩
  · intro p hp
    rcases mem_updateA p hp with h | h
    · rw [hlen]
      exact Nat.lt_succ_of_lt (hD p h)
    · rw [hlen, h]
      exact Nat.lt_succ_self _
  · intro p hp
    rcases mem_registerEq p hp with h | h
    · rw [hlen]
      exact Nat.lt_succ_of_lt (hE p h)
    · rw [hlen, h]
      exact Nat.lt_succ_self _

theorem mergeStep_inv (eqs : List (List String)) (processed : List Entity)
    (st : MergeState) (e : Entity)
    (hinv : MergeInv processed st)
    (hfresh : ∀ e' ∈ processed, e'.id_ ≠ e.id_) :
    MergeInv (processed ++ [e]) (mergeStep eqs st e) := by
  unfold mergeStep
  split
  next i hk =>
    exact addToCluster_inv processed st e i hinv hfresh (hinv.2.2.2.1 _ (lookupA_mem hk))
  next hk =>
    split
    next i hq =>
      have hmem : ∃ x, e.id_ = some x ∧ lookupA st.eqidMap x = some i := by
        cases hx : e.id_ with
        | none => rw [hx] at hq; simp at hq
        | some x => rw [hx] at hq; exact ⟨x, rfl, hq⟩
      obtain ⟨x, hx, hlk⟩ := hmem
      exact addToCluster_inv processed st e i hinv hfresh (hinv.2.2.2.2 _ (lookupA_mem hlk))
    next hq =>
      exact createCluster_inv eqs processed st e hinv hfresh

theorem merge_inv_final (ds : Dataset) (h : (ds.entities.map Entity.id_).Nodup) :
    MergeInv ds.entities (ds.entities.foldl (mergeStep ds.equivalences) ⟨[], [], []⟩) := by
  have hgen : ∀ (rest processed : List Entity) (st : MergeState),
      ((processed ++ rest).map Entity.id_).Nodup →
      MergeInv processed st →
      MergeInv (processed ++ rest) (rest.foldl (mergeStep ds.equivalences) st) := by
    intro rest
    induction rest with
    | nil =>
      intro processed st _ hinv
      rw [List.append_nil]
      exact hinv
    | cons e rs ih =>
      intro processed st hnd hinv
      have hfresh : ∀ e' ∈ processed, e'.id_ ≠ e.id_ := by
        intro e' he' heq
        have hnd' := hnd
        rw [List.map_append, List.nodup_append] at hnd'
        obtain ⟨_, _, hdisj⟩ := hnd'
        refine hdisj (List.mem_map_of_mem Entity.id_ he') ?_
        rw [heq, List.map_cons]
        exact List.mem_cons_self _ _
      have hstep := mergeStep_inv ds.equivalences processed st e hinv hfresh
      have hnd2 : (((processed ++ [e]) ++ rs).map Entity.id_).Nodup := by
        rw [List.append_assoc, List.singleton_append]
        exact hnd
      have := ih (processed ++ [e]) (mergeStep ds.equivalences st e) hnd2 hstep
      rw [List.append_assoc, List.singleton_append] at this
      exact this
  have hinit : MergeInv [] ⟨[], [], []⟩ :=
    ⟨fun c hc => absurd hc (List.not_mem_nil _),
     fun e he => absurd he (List.not_mem_nil _),
     fun c hc => absurd hc (List.not_mem_nil _),
     fun p hp => absurd hp (List.not_mem_nil _),
     fun p hp => absurd hp (List.not_mem_nil _)⟩
  have := hgen ds.entities [] ⟨[], [], []⟩ (by simpa using h) hinit
  simpa using this

/-- C7: in a reference dataset whose raw entity ids are pairwise distinct,
after entity canonicalization every raw entity's id appears in exactly one
cluster's id set, and every cluster's type, normalization kind and
normalization value are those of its first member (the entity whose id
heads the cluster's id list), fixed at creation and never recomputed. -/
theorem C7_partition (ds : Dataset) (h : (ds.entities.map Entity.id_).Nodup) :
    (∀ e ∈ ds.entities, ∃ n c, (merge_ref_entities ds).get? n = some c ∧ e.id_ ∈ c.ids
        ∧ ∀ m c', (merge_ref_entities ds).get? m = some c' → e.id_ ∈ c'.ids → m = n)
    ∧ ∀ c ∈ merge_ref_entities ds, ∃ e ∈ ds.entities,
        c.ids.head? = some e.id_ ∧ c.type_ = e.type_
        ∧ c.normalization_type = e.normalization_type
        ∧ c.normalization_value = e.normalization_value := by
  obtain ⟨hA, hB, hC, hD, hE⟩ := merge_inv_final ds h
  exact ⟨hB, hC⟩

/-- C7 witness: a concrete three-entity dataset (two entities share an
identity key, the third is separate), with distinct ids. -/
theorem C7_partition_witness :
    (∀ e ∈ (⟨[⟨some "a", "T", "k", "name", "k"⟩,
              ⟨some "b", "T", "k", "name", "k"⟩,
              ⟨some "c", "U", "k2", "name", "k2"⟩], [], []⟩ : Dataset).entities,
        ∃ n c, (merge_ref_entities ⟨[⟨some "a", "T", "k", "name", "k"⟩,
              ⟨some "b", "T", "k", "name", "k"⟩,
              ⟨some "c", "U", "k2", "name", "k2"⟩], [], []⟩).get? n = some c ∧ e.id_ ∈ c.ids
          ∧ ∀ m c', (merge_ref_entities ⟨[⟨some "a", "T", "k", "name", "k"⟩,
              ⟨some "b", "T", "k", "name", "k"⟩,
              ⟨some "c", "U", "k2", "name", "k2"⟩], [], []⟩).get? m = some c'
              → e.id_ ∈ c'.ids → m = n)
    ∧ ∀ c ∈ merge_ref_entities ⟨[⟨some "a", "T", "k", "name", "k"⟩,
              ⟨some "b", "T", "k", "name", "k"⟩,
              ⟨some "c", "U", "k2", "name", "k2"⟩], [], []⟩,
        ∃ e ∈ (⟨[⟨some "a", "T", "k", "name", "k"⟩,
              ⟨some "b", "T", "k", "name", "k"⟩,
              ⟨some "c", "U", "k2", "name", "k2"⟩], [], []⟩ : Dataset).entities,
          c.ids.head? = some e.id_ ∧ c.type_ = e.type_
          ∧ c.normalization_type = e.normalization_type
          ∧ c.normalization_value = e.normalization_value :=
  C7_partition _ (by decide)

/-- C5 counterexample: predicted text that decodes as JSON but is not the
expected structure — an entity record without `type` — raises `KeyError`
(uncaught) instead of degrading to the empty Dataset, falsifying the
claim for this not-parseable-as-expected-structure input. -/
theorem C5_counterexample :
    from_json_file
        (fun _ => .json (J.obj [("entities", J.arr [J.obj [("name", J.str "x")]]),
                                ("relationships", J.arr [])]))
        (.present "x")
      = .error (.pyError .keyError)
    ∧ (Except.error (Fail.pyError .keyError) : Except Fail Dataset) ≠ .ok ⟨[], [], []⟩ := by
  refine ⟨by decide, by decide⟩

/-- C5 witness: a decoder that always fails on a concrete text. -/
theorem C5_malformed_recovers_witness :
    from_json_file (fun _ => DecodeOutcome.malformed) (.present "not json") = .ok ⟨[], [], []⟩ :=
  C5_malformed_recovers _ "not json" rfl

theorem pred_redundant_nil (refs : List MergedRelation) :
    pred_redundant refs ([] : List Relation) = .ok [] := by
  induction refs with
  | nil => rfl
  | cons r rs ih => simp [pred_redundant, predScanAux, ih]

theorem matchingsAux_nil_avail (ris : List Nat) : matchingsAux ris [] = [[]] := by
  induction ris with
  | nil => rfl
  | cons r rs ih => simp [matchingsAux, ih]

theorem get_pairs_no_preds (R : Nat) (w : Nat → Nat → ℚ) :
    get_pairs R 0 w = (List.range R).map (fun r => ⟨some r, none, 0⟩) := by
  have hpick : pickBest w [[]] = [] := by
    simp [pickBest, pickStep, matchWeight]
  unfold get_pairs chosenMatching
  rw [show List.range 0 = ([] : List Nat) from rfl, matchingsAux_nil_avail, hpick]
  simp

theorem evalCatch_empty (refds : MergedRefDataset) :
    evalCatch refds ⟨[], [], []⟩ = .ok 0 := by
  have h3 : simMatrix (relation_similarity standard_type_similarity standard_arg_similarity)
      refds.relations [] = .ok (refds.relations.map (fun _ => [])) :=
    mapM_ok _ _ _ (fun r _ => rfl)
  have h4 : evalPairs refds ⟨[], [], []⟩ standard_type_similarity standard_arg_similarity
      = .ok ((List.range refds.relations.length).map (fun r => ⟨some r, none, 0⟩)) := by
    unfold evalPairs
    rw [show (⟨[], [], []⟩ : Dataset).relations = [] from rfl,
        pred_redundant_nil refds.relations]
    dsimp only
    rw [show dropRedundant ([] : List Relation) [] = [] from rfl, h3]
    dsimp only
    rw [show ([] : List Relation).length = 0 from rfl, get_pairs_no_preds]
  have htp : ((List.range refds.relations.length).map
      (fun r => (⟨some r, none, 0⟩ : Pair))).countP isTP = 0 := by
    rw [List.countP_eq_zero]
    intro a ha
    obtain ⟨r, _, rfl⟩ := List.mem_map.mp ha
    simp [isTP]
  have hfp : ((List.range refds.relations.length).map
      (fun r => (⟨some r, none, 0⟩ : Pair))).countP
      (fun pr => pr.pred?.isSome && !(isTP pr)) = 0 := by
    rw [List.countP_eq_zero]
    intro a ha
    obtain ⟨r, _, rfl⟩ := List.mem_map.mp ha
    simp
  have h5 : mkBaseScores ((List.range refds.relations.length).map
      (fun r => (⟨some r, none, 0⟩ : Pair))) = .error .zeroDivisionError := by
    simp only [mkBaseScores, htp, hfp]
    rfl
  unfold evalCatch evaluate
  rw [h4]
  dsimp only
  rw [h5]

/-- C3 counterexample: with a well-formed reference file present, a
missing predicted file makes `Dataset.from_json_file` call `exit(1)` and
abort the whole run, refuting "only absence of the reference file is
fatal for the whole run". -/
theorem C3_counterexample :
    mainModel (fun _ => DecodeOutcome.malformed) (.present "") .missing
      = .error .exitFatal := by
  decide

/-- C3 (amended): whenever the reference file is present, parses and
canonicalizes, a predicted input whose text fails JSON decoding after
repair degrades gracefully to the worst score 0.0 instead of aborting;
but absence of an input file — the predicted one as much as the
reference one — is fatal for the whole run. -/
theorem C3_failure_handling (decode : String → DecodeOutcome) (rf : RawFile)
    (ds : Dataset) (mds : MergedRefDataset)
    (h1 : from_json_file decode rf = .ok ds) (h2 : merge_ref ds = .ok mds) :
    (∀ t, decode (remove_last_comma (remove_codeblock (pyStrip t))) = .malformed →
        mainModel decode rf (.present t) = .ok 0)
    ∧ mainModel decode rf .missing = .error .exitFatal := by
  constructor
  · intro t ht
    have hpred : from_json_file decode (.present t) = .ok ⟨[], [], []⟩ := by
      simp only [from_json_file, ht]
    simp only [mainModel, h1, h2, hpred, evalCatch_empty]
  · simp only [mainModel, h1, h2]
    rfl

/-- C3 witness: a trivially malformed decoder over a present reference
file, applied to the amended failure model. -/
theorem C3_failure_handling_witness :
    (∀ t, (fun _ : String => DecodeOutcome.malformed)
          (remove_last_comma (remove_codeblock (pyStrip t))) = .malformed →
        mainModel (fun _ => DecodeOutcome.malformed) (.present "") (.present t) = .ok 0)
    ∧ mainModel (fun _ => DecodeOutcome.malformed) (.present "") .missing
        = .error .exitFatal :=
  C3_failure_handling (fun _ => DecodeOutcome.malformed) (.present "")
    ⟨[], [], []⟩ ⟨[], []⟩ (by decide) (by decide)

/-- C4: when both the precision denominator `TP+FP` and the recall
denominator `TP+FN` computed from the evaluation's pairs are zero, the
`ZeroDivisionError` raised by the scoring is recovered locally by the
per-triple evaluation (the `try/except` in `main`), which logs a
diagnostic and reports score 0.0; no exception or numeric error escapes
the evaluation operation. -/
theorem C4_degenerate_zero (refds : MergedRefDataset) (pred : Dataset) (pairs : List Pair)
    (h : evalPairs refds pred standard_type_similarity standard_arg_similarity = .ok pairs)
    (hp : pairs.countP isTP + pairs.countP (fun pr => pr.pred?.isSome && !(isTP pr)) = 0)
    (_hr : pairs.countP isTP + pairs.countP (fun pr => pr.ref?.isSome && !(isTP pr)) = 0) :
    evalCatch refds pred = .ok 0 := by
  have hbs : mkBaseScores pairs = .error .zeroDivisionError := by
    simp only [mkBaseScores, hp]
    rfl
  unfold evalCatch evaluate
  rw [h]
  dsimp only
  rw [hbs]

/-- C4 witness: empty reference and empty prediction — no pairs, both
denominators zero, explicit 0.0 outcome. -/
theorem C4_degenerate_zero_witness :
    evalCatch ⟨[], []⟩ ⟨[], [], []⟩ = .ok 0 :=
  C4_degenerate_zero ⟨[], []⟩ ⟨[], [], []⟩ [] (by decide) (by decide) (by decide)

theorem mem_enumFrom_iff {α : Type} (l : List α) :
    ∀ (k j : Nat) (x : α),
      ((j, x) ∈ List.enumFrom k l) ↔ (k ≤ j ∧ l.get? (j - k) = some x) := by
  induction l with
  | nil => intro k j x; simp [List.enumFrom]
  | cons y ys ih =>
    intro k j x
    rw [show List.enumFrom k (y :: ys) = (k, y) :: List.enumFrom (k + 1) ys from rfl,
        List.mem_cons]
    constructor
    · rintro (heq | hmem)
      · have hj1 : j = k := congrArg Prod.fst heq
        have hj2 : x = y := congrArg Prod.snd heq
        subst hj1
        subst hj2
        refine ⟨le_rfl, ?_⟩
        rw [Nat.sub_self]
        rfl
      · obtain ⟨hk, hget⟩ := (ih (k + 1) j x).mp hmem
        refine ⟨by omega, ?_⟩
        rw [show j - k = (j - (k + 1)) + 1 from by omega]
        exact hget
    · rintro ⟨hk, hget⟩
      by_cases hj : j = k
      · subst hj
        rw [Nat.sub_self] at hget
        left
        have hx : y = x := by injection hget
        rw [hx]
      · right
        refine (ih (k + 1) j x).mpr ⟨by omega, ?_⟩
        rw [show j - k = (j - (k + 1)) + 1 from by omega] at hget
        exact hget

theorem predScanAux_char (simf : MergedRelation → Relation → Except PyErr ℚ)
    (r : MergedRelation) :
    ∀ (l : List Relation) (k : Nat) (found : Bool) (ys : List Nat),
      predScanAux simf r (List.enumFrom k l) found = .ok ys →
      ∀ j, j ∈ ys ↔ (k ≤ j ∧ ∃ p, l.get? (j - k) = some p ∧ simf r p = .ok 1
          ∧ (found = true ∨ ∃ i p', k ≤ i ∧ i < j ∧ l.get? (i - k) = some p'
              ∧ simf r p' = .ok 1)) := by
  intro l
  induction l with
  | nil =>
    intro k found ys h j
    simp only [List.enumFrom, predScanAux] at h
    injection h with h'
    subst h'
    simp
  | cons p0 ps ih =>
    intro k found ys h j
    rw [show List.enumFrom k (p0 :: ps) = (k, p0) :: List.enumFrom (k + 1) ps from rfl] at h
    simp only [predScanAux] at h
    cases hs : simf r p0 with
    | error e => rw [hs] at h; simp at h
    | ok s =>
      rw [hs] at h
      dsimp only at h
      by_cases hs1 : s = 1
      · rw [if_pos hs1] at h
        cases found with
        | true =>
          cases hrec : predScanAux simf r (List.enumFrom (k + 1) ps) true with
          | error e => rw [hrec] at h; simp at h
          | ok ys' =>
            rw [hrec] at h
            dsimp only at h
            injection h with h'
            subst h'
            have Hih := ih (k + 1) true ys' hrec
            constructor
            · intro hj
              rcases List.mem_cons.mp hj with rfl | hj'
              · exact ⟨le_rfl, p0, by rw [Nat.sub_self]; rfl,
                  by rw [← hs1]; exact hs, Or.inl rfl⟩
              · obtain ⟨hk, p, hget, hsim, _⟩ := (Hih j).mp hj'
                refine ⟨by omega, p, ?_, hsim, Or.inl rfl⟩
                rw [show j - k = (j - (k + 1)) + 1 from by omega]
                exact hget
            · rintro ⟨hk, p, hget, hsim, _⟩
              by_cases hj : j = k
              · subst hj
                exact List.mem_cons_self _ _
              · refine List.mem_cons_of_mem _
                  ((Hih j).mpr ⟨by omega, p, ?_, hsim, Or.inl rfl⟩)
                rw [show j - k = (j - (k + 1)) + 1 from by omega] at hget
                exact hget
        | false =>
          have Hih := ih (k + 1) true ys h
          constructor
          · intro hj
            obtain ⟨hk, p, hget, hsim, _⟩ := (Hih j).mp hj
            refine ⟨by omega, p, ?_, hsim,
              Or.inr ⟨k, p0, le_rfl, by omega, by rw [Nat.sub_self]; rfl,
                by rw [← hs1]; exact hs⟩⟩
            rw [show j - k = (j - (k + 1)) + 1 from by omega]
            exact hget
          · rintro ⟨hk, p, hget, hsim, hor⟩
            by_cases hj : j = k
            · exfalso
              rcases hor with hf | ⟨i, p', hki, hij, _, _⟩
              · exact Bool.noConfusion hf
              · omega
            · refine (Hih j).mpr ⟨by omega, p, ?_, hsim, Or.inl rfl⟩
              rw [show j - k = (j - (k + 1)) + 1 from by omega] at hget
              exact hget
      · rw [if_neg hs1] at h
        have Hih := ih (k + 1) found ys h
        constructor
        · intro hj
          obtain ⟨hk, p, hget, hsim, hor⟩ := (Hih j).mp hj
          refine ⟨by omega, p, ?_, hsim, ?_⟩
          · rw [show j - k = (j - (k + 1)) + 1 from by omega]
            exact hget
          · rcases hor with hf | ⟨i, p', hki, hij, hget', hsim'⟩
            · exact Or.inl hf
            · refine Or.inr ⟨i, p', by omega, hij, ?_, hsim'⟩
              rw [show i - k = (i - (k + 1)) + 1 from by omega]
              exact hget'
        · rintro ⟨hk, p, hget, hsim, hor⟩
          by_cases hj : j = k
          · exfalso
            subst hj
            rw [Nat.sub_self] at hget
            have hp : p0 = p := by injection hget
            rw [← hp, hs] at hsim
            injection hsim with hv
            exact hs1 hv
          · refine (Hih j).mpr ⟨by omega, p, ?_, hsim, ?_⟩
            · rw [show j - k = (j - (k + 1)) + 1 from by omega] at hget
              exact hget
            · rcases hor with hf | ⟨i, p', hki, hij, hget', hsim'⟩
              · exact Or.inl hf
              · by_cases hik : i = k
                · exfalso
                  subst hik
                  rw [Nat.sub_self] at hget'
                  have hp : p0 = p' := by injection hget'
                  rw [← hp, hs] at hsim'
                  injection hsim' with hv
                  exact hs1 hv
                · refine Or.inr ⟨i, p', by omega, hij, ?_, hsim'⟩
                  rw [show i - k = (i - (k + 1)) + 1 from by omega] at hget'
                  exact hget'

theorem pred_redundant_char (refs : List MergedRelation) (preds : List Relation) :
    ∀ (idxs : List Nat), pred_redundant refs preds = .ok idxs →
      ∀ j, j ∈ idxs ↔ ∃ r ∈ refs, ∃ p, preds.get? j = some p
          ∧ relation_similarity standard_type_similarity standard_arg_similarity r p = .ok 1
          ∧ ∃ i p', i < j ∧ preds.get? i = some p'
              ∧ relation_similarity standard_type_similarity standard_arg_similarity r p'
                  = .ok 1 := by
  induction refs with
  | nil =>
    intro idxs h j
    simp only [pred_redundant] at h
    injection h with h'
    subst h'
    simp
  | cons r rs ih =>
    intro idxs h j
    simp only [pred_redundant] at h
    cases hscan : predScanAux
        (relation_similarity standard_type_similarity standard_arg_similarity)
        r preds.enum false with
    | error e => rw [hscan] at h; simp at h
    | ok ys =>
      rw [hscan] at h
      dsimp only at h
      cases hrest : pred_redundant rs preds with
      | error e => rw [hrest] at h; simp at h
      | ok zs =>
        rw [hrest] at h
        dsimp only at h
        injection h with h'
        subst h'
        rw [List.mem_append]
        have hys := predScanAux_char _ r preds 0 false ys
          (by rw [show List.enumFrom 0 preds = preds.enum from rfl]; exact hscan) j
        have hzs := ih zs hrest j
        constructor
        · rintro (hj | hj)
          · obtain ⟨_, p, hget, hsim, hor⟩ := hys.mp hj
            rw [Nat.sub_zero] at hget
            rcases hor with hf | ⟨i, p', _, hij, hget', hsim'⟩
            · exact Bool.noConfusion hf
            · rw [Nat.sub_zero] at hget'
              exact ⟨r, List.mem_cons_self _ _, p, hget, hsim, i, p', hij, hget', hsim'⟩
          · obtain ⟨r', hr', rest⟩ := hzs.mp hj
            exact ⟨r', List.mem_cons_of_mem _ hr', rest⟩
        · rintro ⟨r', hr', p, hget, hsim, i, p', hij, hget', hsim'⟩
          rcases List.mem_cons.mp hr' with rfl | hr'
          · left
            refine hys.mpr ⟨Nat.zero_le _, p, ?_, hsim,
              Or.inr ⟨i, p', Nat.zero_le _, hij, ?_, hsim'⟩⟩
            · rw [Nat.sub_zero]; exact hget
            · rw [Nat.sub_zero]; exact hget'
          · right
            exact hzs.mpr ⟨r', hr', p, hget, hsim, i, p', hij, hget', hsim'⟩

/-- C8: the redundancy filter uses the strict type and strict argument
similarity only (`pred_redundant` hard-codes them, whatever similarity
mode `evaluate` receives): a predicted relation at position `j` is marked
redundant exactly when some reference relation has a perfect 1.0 match at
an earlier position `i < j` (that prediction claims the reference) and
the prediction at `j` also scores exactly 1.0 against it; every redundant
position is excluded from the filtered prediction set handed to the
assignment, so it can neither double-count as a true positive nor appear
as a false positive against another reference relation. -/
theorem C8_redundancy_filter (refs : List MergedRelation) (preds : List Relation)
    (idxs : List Nat) (h : pred_redundant refs preds = .ok idxs) :
    (∀ j, j ∈ idxs ↔ ∃ r ∈ refs, ∃ p, preds.get? j = some p
        ∧ relation_similarity standard_type_similarity standard_arg_similarity r p = .ok 1
        ∧ ∃ i p', i < j ∧ preds.get? i = some p'
            ∧ relation_similarity standard_type_similarity standard_arg_similarity r p'
                = .ok 1)
    ∧ dropRedundant preds idxs
        = (preds.enum.filter (fun ip => decide (ip.1 ∉ idxs))).map Prod.snd
    ∧ ∀ j ∈ idxs, ¬ ∃ p, (j, p) ∈ preds.enum.filter (fun ip => decide (ip.1 ∉ idxs)) := by
  refine ⟨pred_redundant_char refs preds idxs h, rfl, ?_⟩
  rintro j hj ⟨p, hp⟩
  have hmem := List.mem_filter.mp hp
  have hd := hmem.2
  simp only [decide_eq_true_eq] at hd
  exact hd hj

/-- C8 witness: one reference relation and two identical perfect-match
predictions; position 1 is redundant, claimed by position 0, and drops
out of the filtered prediction set. -/
theorem C8_redundancy_filter_witness :
    (∀ j, j ∈ [1] ↔ ∃ r ∈ [(⟨"T", ⟨"E", [some "x"], ["n"], "name", "n"⟩,
                             ⟨"E", [some "x"], ["n"], "name", "n"⟩⟩ : MergedRelation)],
        ∃ p, ([⟨"T", "n", "n"⟩, ⟨"T", "n", "n"⟩] : List Relation).get? j = some p
        ∧ relation_similarity standard_type_similarity standard_arg_similarity r p = .ok 1
        ∧ ∃ i p', i < j ∧ ([⟨"T", "n", "n"⟩, ⟨"T", "n", "n"⟩] : List Relation).get? i = some p'
            ∧ relation_similarity standard_type_similarity standard_arg_similarity r p'
                = .ok 1)
    ∧ dropRedundant [⟨"T", "n", "n"⟩, ⟨"T", "n", "n"⟩] [1]
        = (([⟨"T", "n", "n"⟩, ⟨"T", "n", "n"⟩] : List Relation).enum.filter
            (fun ip => decide (ip.1 ∉ [1]))).map Prod.snd
    ∧ ∀ j ∈ [1], ¬ ∃ p, (j, p) ∈ ([⟨"T", "n", "n"⟩, ⟨"T", "n", "n"⟩] : List Relation).enum.filter
        (fun ip => decide (ip.1 ∉ [1])) :=
  C8_redundancy_filter
    [⟨"T", ⟨"E", [some "x"], ["n"], "name", "n"⟩, ⟨"E", [some "x"], ["n"], "name", "n"⟩⟩]
    [⟨"T", "n", "n"⟩, ⟨"T", "n", "n"⟩] [1] (by decide)

theorem matchWeight_eq_sum (w : Nat → Nat → ℚ) (m : List (Nat × Nat)) :
    matchWeight w m = (m.map (fun rp => w rp.1 rp.2)).sum := by
  have gen : ∀ (m : List (Nat × Nat)) (b : ℚ),
      m.foldl (fun acc rp => pyAdd acc (w rp.1 rp.2)) b
        = b + (m.map (fun rp => w rp.1 rp.2)).sum := by
    intro m
    induction m with
    | nil => intro b; simp
    | cons x xs ih =>
      intro b
      rw [List.foldl_cons, ih, pyAdd_eq, List.map_cons, List.sum_cons]
      ring
  unfold matchWeight
  rw [gen]
  simp

theorem matchWeight_cons (w : Nat → Nat → ℚ) (x : Nat × Nat) (m : List (Nat × Nat)) :
    matchWeight w (x :: m) = w x.1 x.2 + matchWeight w m := by
  rw [matchWeight_eq_sum, matchWeight_eq_sum, List.map_cons, List.sum_cons]

theorem matchingsAux_sound :
    ∀ (ris avail : List Nat), ris.Nodup → avail.Nodup →
      ∀ m ∈ matchingsAux ris avail, ValidFor ris avail m := by
  intro ris
  induction ris with
  | nil =>
    intro avail _ _ m hm
    rw [show matchingsAux [] avail = [[]] from rfl] at hm
    have hme : m = [] := List.mem_singleton.mp hm
    subst hme
    exact ⟨List.nodup_nil, by simp, List.nodup_nil, by simp⟩
  | cons r rs ih =>
    intro avail hris havail m hm
    have hrn : r ∉ rs := (List.nodup_cons.mp hris).1
    have hrsn : rs.Nodup := (List.nodup_cons.mp hris).2
    rw [show matchingsAux (r :: rs) avail
        = matchingsAux rs avail
          ++ avail.bind (fun p => (matchingsAux rs (avail.erase p)).map
              (fun m => (r, p) :: m)) from rfl] at hm
    rcases List.mem_append.mp hm with hm | hm
    · obtain ⟨h1, h2, h3, h4⟩ := ih avail hrsn havail m hm
      exact ⟨h1, fun a ha => List.mem_cons_of_mem _ (h2 a ha), h3, h4⟩
    · obtain ⟨p, hp, hmm⟩ := List.mem_bind.mp hm
      obtain ⟨m', hm', rfl⟩ := List.mem_map.mp hmm
      obtain ⟨h1, h2, h3, h4⟩ := ih (avail.erase p) hrsn (havail.erase p) m' hm'
      refine ⟨?_, ?_, ?_, ?_⟩
      · rw [List.map_cons]
        exact List.nodup_cons.mpr ⟨fun hcon => hrn (h2 r hcon), h1⟩
      · rw [List.map_cons]
        intro a ha
        rcases List.mem_cons.mp ha with rfl | ha
        · exact List.mem_cons_self _ _
        · exact List.mem_cons_of_mem _ (h2 a ha)
      · rw [List.map_cons]
        refine List.nodup_cons.mpr ⟨?_, h3⟩
        intro hcon
        have hpe := h4 p hcon
        exact ((havail.mem_erase_iff).mp hpe).1 rfl
      · rw [List.map_cons]
        intro b hb
        rcases List.mem_cons.mp hb with rfl | hb
        · exact hp
        · exact List.erase_subset _ _ (h4 b hb)

theorem nil_mem_matchingsAux : ∀ (ris avail : List Nat), [] ∈ matchingsAux ris avail := by
  intro ris
  induction ris with
  | nil => intro avail; exact List.mem_singleton.mpr rfl
  | cons r rs ih => intro avail; exact List.mem_append.mpr (Or.inl (ih avail))

theorem pickBest_spec (w : Nat → Nat → ℚ) (l : List (List (Nat × Nat))) :
    (∀ m ∈ l, matchWeight w m ≤ matchWeight w (pickBest w l))
    ∧ (pickBest w l ∈ l ∨ pickBest w l = []) := by
  have gen : ∀ (l : List (List (Nat × Nat))) (b : List (Nat × Nat)),
      (∀ m ∈ l, matchWeight w m ≤ matchWeight w (l.foldl (pickStep w) b))
      ∧ matchWeight w b ≤ matchWeight w (l.foldl (pickStep w) b)
      ∧ (l.foldl (pickStep w) b ∈ l ∨ l.foldl (pickStep w) b = b) := by
    intro l
    induction l with
    | nil =>
      intro b
      exact ⟨fun m hm => absurd hm (List.not_mem_nil _), le_rfl, Or.inr rfl⟩
    | cons x xs ih =>
      intro b
      obtain ⟨ha, hb, hc⟩ := ih (pickStep w b x)
      have hbx1 : matchWeight w b ≤ matchWeight w (pickStep w b x) := by
        unfold pickStep
        split
        next hlt => exact le_of_lt hlt
        next => exact le_rfl
      have hbx2 : matchWeight w x ≤ matchWeight w (pickStep w b x) := by
        unfold pickStep
        split
        next => exact le_rfl
        next hlt => exact le_of_not_lt hlt
      refine ⟨?_, le_trans hbx1 hb, ?_⟩
      · intro m hm
        rcases List.mem_cons.mp hm with rfl | hm
        · exact le_trans hbx2 hb
        · exact ha m hm
      · rcases hc with hc | hc
        · exact Or.inl (List.mem_cons_of_mem _ hc)
        · by_cases hlt : matchWeight w b < matchWeight w x
          · have hpx : pickStep w b x = x := by rw [pickStep, if_pos hlt]
            left
            rw [List.foldl_cons, hc, hpx]
            exact List.mem_cons_self _ _
          · have hpx : pickStep w b x = b := by rw [pickStep, if_neg hlt]
            right
            rw [List.foldl_cons, hc, hpx]
  obtain ⟨ha, _, hc⟩ := gen l []
  exact ⟨ha, hc⟩

theorem matchingsAux_complete (w : Nat → Nat → ℚ) :
    ∀ (ris avail : List Nat) (m : List (Nat × Nat)), ValidFor ris avail m →
      ∃ m' ∈ matchingsAux ris avail, matchWeight w m' = matchWeight w m := by
  intro ris
  induction ris with
  | nil =>
    rintro avail m ⟨h1, h2, h3, h4⟩
    have hm : m = [] := by
      cases m with
      | nil => rfl
      | cons x xs =>
        exact absurd (h2 x.1 (by rw [List.map_cons]; exact List.mem_cons_self _ _))
          (List.not_mem_nil _)
    subst hm
    exact ⟨[], List.mem_singleton.mpr rfl, rfl⟩
  | cons r rs ih =>
    rintro avail m ⟨h1, h2, h3, h4⟩
    by_cases hr : r ∈ m.map Prod.fst
    · obtain ⟨rp, hrp, hfst⟩ := List.mem_map.mp hr
      obtain ⟨m₁, m₂, rfl⟩ := List.append_of_mem hrp
      have hperm : (m₁ ++ rp :: m₂).Perm (rp :: (m₁ ++ m₂)) := List.perm_middle
      have hfstperm : ((m₁ ++ rp :: m₂).map Prod.fst).Perm
          (rp.1 :: ((m₁ ++ m₂).map Prod.fst)) := by
        have := hperm.map Prod.fst
        simpa using this
      have hsndperm : ((m₁ ++ rp :: m₂).map Prod.snd).Perm
          (rp.2 :: ((m₁ ++ m₂).map Prod.snd)) := by
        have := hperm.map Prod.snd
        simpa using this
      have h1' := hfstperm.nodup_iff.mp h1
      have h3' := hsndperm.nodup_iff.mp h3
      have hfst0 : (((m₁ ++ m₂)).map Prod.fst).Nodup := (List.nodup_cons.mp h1').2
      have hrnot : rp.1 ∉ ((m₁ ++ m₂)).map Prod.fst := (List.nodup_cons.mp h1').1
      have hsnd0 : (((m₁ ++ m₂)).map Prod.snd).Nodup := (List.nodup_cons.mp h3').2
      have hpnot : rp.2 ∉ ((m₁ ++ m₂)).map Prod.snd := (List.nodup_cons.mp h3').1
      have hfstsub : ∀ a ∈ ((m₁ ++ m₂)).map Prod.fst, a ∈ rs := by
        intro a ha
        have hin : a ∈ (m₁ ++ rp :: m₂).map Prod.fst :=
          hfstperm.mem_iff.mpr (List.mem_cons_of_mem _ ha)
        rcases List.mem_cons.mp (h2 a hin) with rfl | hrs
        · exact absurd ha (hfst ▸ hrnot)
        · exact hrs
      have hsndsub : ∀ b ∈ ((m₁ ++ m₂)).map Prod.snd, b ∈ avail.erase rp.2 := by
        intro b hb
        have hin : b ∈ (m₁ ++ rp :: m₂).map Prod.snd :=
          hsndperm.mem_iff.mpr (List.mem_cons_of_mem _ hb)
        have hbav := h4 b hin
        have hbne : b ≠ rp.2 := fun heq => hpnot (heq ▸ hb)
        exact (List.mem_erase_of_ne hbne).mpr hbav
      have hpavail : rp.2 ∈ avail :=
        h4 rp.2 (hsndperm.mem_iff.mpr (List.mem_cons_self _ _))
      obtain ⟨m'', hm'', hww⟩ := ih (avail.erase rp.2) (m₁ ++ m₂)
        ⟨hfst0, hfstsub, hsnd0, hsndsub⟩
      refine ⟨(r, rp.2) :: m'', ?_, ?_⟩
      · rw [show matchingsAux (r :: rs) avail
            = matchingsAux rs avail
              ++ avail.bind (fun p => (matchingsAux rs (avail.erase p)).map
                  (fun m => (r, p) :: m)) from rfl]
        refine List.mem_append.mpr (Or.inr ?_)
        exact List.mem_bind.mpr ⟨rp.2, hpavail, List.mem_map.mpr ⟨m'', hm'', rfl⟩⟩
      · have hwm : matchWeight w (m₁ ++ rp :: m₂)
            = w rp.1 rp.2 + matchWeight w (m₁ ++ m₂) := by
          rw [matchWeight_eq_sum, matchWeight_eq_sum]
          rw [(hperm.map (fun rp => w rp.1 rp.2)).sum_eq]
          rw [List.map_cons, List.sum_cons]
        rw [matchWeight_cons, hww, hwm, hfst]
    · have h2' : ∀ a ∈ m.map Prod.fst, a ∈ rs := by
        intro a ha
        rcases List.mem_cons.mp (h2 a ha) with rfl | hrs
        · exact absurd ha hr
        · exact hrs
      obtain ⟨m', hm', hww⟩ := ih avail m ⟨h1, h2', h3, h4⟩
      refine ⟨m', ?_, hww⟩
      rw [show matchingsAux (r :: rs) avail
          = matchingsAux rs avail
            ++ avail.bind (fun p => (matchingsAux rs (avail.erase p)).map
                (fun m => (r, p) :: m)) from rfl]
      exact List.mem_append.mpr (Or.inl hm')

theorem countP_congrB {α : Type} {l : List α} {p q : α → Bool}
    (h : ∀ a ∈ l, p a = q a) : l.countP p = l.countP q := by
  induction l with
  | nil => rfl
  | cons x xs ih =>
    rw [List.countP_cons, List.countP_cons, h x (List.mem_cons_self _ _),
        ih (fun a ha => h a (List.mem_cons_of_mem _ ha))]

theorem countP_eq_one_of_nodup_mem {l : List Nat} (h : l.Nodup) {a : Nat} (ha : a ∈ l) :
    l.countP (fun x => decide (x = a)) = 1 := by
  induction l with
  | nil => exact absurd ha (List.not_mem_nil _)
  | cons y ys ih =>
    have hyn : y ∉ ys := (List.nodup_cons.mp h).1
    have hysn : ys.Nodup := (List.nodup_cons.mp h).2
    rw [List.countP_cons]
    rcases List.mem_cons.mp ha with rfl | ha'
    · have hz : ys.countP (fun x => decide (x = a)) = 0 :=
        List.countP_eq_zero.mpr (fun x hx => by
          simp only [decide_eq_true_eq]
          intro heq
          exact hyn (heq ▸ hx))
      simp [hz]
    · have h1 := ih hysn ha'
      have hy : ¬ (y = a) := fun heq => hyn (heq ▸ ha')
      simp [h1, hy]

theorem countP_fst_eq_one {m : List (Nat × Nat)} (h : (m.map Prod.fst).Nodup)
    {i : Nat} (hi : i ∈ m.map Prod.fst) :
    m.countP (fun rp => decide (rp.1 = i)) = 1 := by
  have hc := countP_eq_one_of_nodup_mem h hi
  rw [List.countP_map] at hc
  exact hc

theorem countP_fst_eq_zero {m : List (Nat × Nat)} {i : Nat}
    (hi : i ∉ m.map Prod.fst) :
    m.countP (fun rp => decide (rp.1 = i)) = 0 := by
  refine List.countP_eq_zero.mpr ?_
  intro rp hrp
  simp only [decide_eq_true_eq]
  intro heq
  exact hi (List.mem_map.mpr ⟨rp, hrp, heq⟩)

theorem countP_snd_eq_one {m : List (Nat × Nat)} (h : (m.map Prod.snd).Nodup)
    {j : Nat} (hj : j ∈ m.map Prod.snd) :
    m.countP (fun rp => decide (rp.2 = j)) = 1 := by
  have hc := countP_eq_one_of_nodup_mem h hj
  rw [List.countP_map] at hc
  exact hc

theorem countP_snd_eq_zero {m : List (Nat × Nat)} {j : Nat}
    (hj : j ∉ m.map Prod.snd) :
    m.countP (fun rp => decide (rp.2 = j)) = 0 := by
  refine List.countP_eq_zero.mpr ?_
  intro rp hrp
  simp only [decide_eq_true_eq]
  intro heq
  exact hj (List.mem_map.mpr ⟨rp, hrp, heq⟩)

theorem nodup_subset_length_le {l l' : List Nat} (h : l.Nodup)
    (hs : ∀ a ∈ l, a ∈ l') : l.length ≤ l'.length := by
  calc l.length = l.toFinset.card := (List.toFinset_card_of_nodup h).symm
    _ ≤ l'.toFinset.card := Finset.card_le_card (fun a ha =>
        List.mem_toFinset.mpr (hs a (List.mem_toFinset.mp ha)))
    _ ≤ l'.length := l'.toFinset_card_le

theorem chosenMatching_valid (R P : Nat) (w : Nat → Nat → ℚ) :
    ValidFor (List.range R) (List.range P) (chosenMatching R P w) := by
  rcases (pickBest_spec w (matchingsAux (List.range R) (List.range P))).2 with hmem | hnil
  · exact matchingsAux_sound (List.range R) (List.range P)
      (List.nodup_range R) (List.nodup_range P) _ hmem
  · rw [show chosenMatching R P w
        = pickBest w (matchingsAux (List.range R) (List.range P)) from rfl, hnil]
    exact ⟨List.nodup_nil, by simp, List.nodup_nil, by simp⟩

/-- C9 (spec-modelled): the pairing engine returns a maximum-weight
one-to-one assignment — every reference index below `R` and every
predicted index below `P` appears in exactly one `Pair`, one-sided pairs
carry score 0, the matched set has at most `min(R, P)` pairs, and no
one-to-one matching drawn from the two index pools has a larger total
similarity than the chosen one (global optimum, not greedy). -/
theorem C9_optimal_pairing (R P : Nat) (w : Nat → Nat → ℚ) :
    (∀ i, i < R → refCount (get_pairs R P w) i = 1)
    ∧ (∀ j, j < P → predCount (get_pairs R P w) j = 1)
    ∧ (∀ pr ∈ get_pairs R P w,
        (pr.ref? = none → pr.pred?.isSome ∧ pr.score = 0)
        ∧ (pr.pred? = none → pr.ref?.isSome ∧ pr.score = 0))
    ∧ (chosenMatching R P w).length ≤ min R P
    ∧ ∀ m : List (Nat × Nat),
        (m.map Prod.fst).Nodup → (∀ a ∈ m.map Prod.fst, a ∈ List.range R) →
        (m.map Prod.snd).Nodup → (∀ b ∈ m.map Prod.snd, b ∈ List.range P) →
        matchWeight w m ≤ matchWeight w (chosenMatching R P w) := by
  obtain ⟨hfn, hfs, hsn, hss⟩ := chosenMatching_valid R P w
  have hgp : get_pairs R P w
      = (chosenMatching R P w).map (fun rp => ⟨some rp.1, some rp.2, w rp.1 rp.2⟩)
        ++ ((List.range R).filter
            (fun r => decide (r ∉ (chosenMatching R P w).map Prod.fst))).map
              (fun r => ⟨some r, none, 0⟩)
        ++ ((List.range P).filter
            (fun p => decide (p ∉ (chosenMatching R P w).map Prod.snd))).map
              (fun p => ⟨none, some p, 0⟩) := rfl
  refine ⟨?_, ?_, ?_, ?_, ?_⟩
  · intro i hi
    rw [refCount, hgp, List.countP_append, List.countP_append,
        List.countP_map, List.countP_map, List.countP_map]
    have hcA : (chosenMatching R P w).countP
        ((fun pr : Pair => decide (pr.ref? = some i))
          ∘ (fun rp : Nat × Nat => (⟨some rp.1, some rp.2, w rp.1 rp.2⟩ : Pair)))
        = (chosenMatching R P w).countP (fun rp => decide (rp.1 = i)) :=
      countP_congrB (fun rp _ => by simp)
    have hcC : ((List.range P).filter
        (fun p => decide (p ∉ (chosenMatching R P w).map Prod.snd))).countP
        ((fun pr : Pair => decide (pr.ref? = some i))
          ∘ (fun p : Nat => (⟨none, some p, 0⟩ : Pair))) = 0 :=
      List.countP_eq_zero.mpr (fun p _ => by simp)
    rw [hcA, hcC]
    by_cases hmem : i ∈ (chosenMatching R P w).map Prod.fst
    · have hA : (chosenMatching R P w).countP (fun rp => decide (rp.1 = i)) = 1 :=
        countP_fst_eq_one hfn hmem
      have hB : ((List.range R).filter
          (fun r => decide (r ∉ (chosenMatching R P w).map Prod.fst))).countP
          ((fun pr : Pair => decide (pr.ref? = some i))
            ∘ (fun r : Nat => (⟨some r, none, 0⟩ : Pair))) = 0 := by
        refine List.countP_eq_zero.mpr ?_
        intro r hr
        have hq := (List.mem_filter.mp hr).2
        simp only [decide_eq_true_eq] at hq
        simp only [Function.comp_apply, decide_eq_true_eq, Option.some.injEq]
        intro heq
        exact hq (heq ▸ hmem)
      rw [hA, hB]
    · have hA : (chosenMatching R P w).countP (fun rp => decide (rp.1 = i)) = 0 :=
        countP_fst_eq_zero hmem
      have hBeq : ((List.range R).filter
          (fun r => decide (r ∉ (chosenMatching R P w).map Prod.fst))).countP
          ((fun pr : Pair => decide (pr.ref? = some i))
            ∘ (fun r : Nat => (⟨some r, none, 0⟩ : Pair)))
          = ((List.range R).filter
            (fun r => decide (r ∉ (chosenMatching R P w).map Prod.fst))).countP
            (fun r => decide (r = i)) :=
        countP_congrB (fun r _ => by simp)
      have hB : ((List.range R).filter
          (fun r => decide (r ∉ (chosenMatching R P w).map Prod.fst))).countP
          (fun r => decide (r = i)) = 1 := by
        refine countP_eq_one_of_nodup_mem ((List.nodup_range R).filter _) ?_
        refine List.mem_filter.mpr ⟨List.mem_range.mpr hi, ?_⟩
        simp only [decide_eq_true_eq]
        exact hmem
      rw [hA, hBeq, hB]
  · intro j hj
    rw [predCount, hgp, List.countP_append, List.countP_append,
        List.countP_map, List.countP_map, List.countP_map]
    have hcA : (chosenMatching R P w).countP
        ((fun pr : Pair => decide (pr.pred? = some j))
          ∘ (fun rp : Nat × Nat => (⟨some rp.1, some rp.2, w rp.1 rp.2⟩ : Pair)))
        = (chosenMatching R P w).countP (fun rp => decide (rp.2 = j)) :=
      countP_congrB (fun rp _ => by simp)
    have hcB : ((List.range R).filter
        (fun r => decide (r ∉ (chosenMatching R P w).map Prod.fst))).countP
        ((fun pr : Pair => decide (pr.pred? = some j))
          ∘ (fun r : Nat => (⟨some r, none, 0⟩ : Pair))) = 0 :=
      List.countP_eq_zero.mpr (fun r _ => by simp)
    rw [hcA, hcB]
    by_cases hmem : j ∈ (chosenMatching R P w).map Prod.snd
    · have hA : (chosenMatching R P w).countP (fun rp => decide (rp.2 = j)) = 1 :=
        countP_snd_eq_one hsn hmem
      have hC : ((List.range P).filter
          (fun p => decide (p ∉ (chosenMatching R P w).map Prod.snd))).countP
          ((fun pr : Pair => decide (pr.pred? = some j))
            ∘ (fun p : Nat => (⟨none, some p, 0⟩ : Pair))) = 0 := by
        refine List.countP_eq_zero.mpr ?_
        intro p hp
        have hq := (List.mem_filter.mp hp).2
        simp only [decide_eq_true_eq] at hq
        simp only [Function.comp_apply, decide_eq_true_eq, Option.some.injEq]
        intro heq
        exact hq (heq ▸ hmem)
      rw [hA, hC]
    · have hA : (chosenMatching R P w).countP (fun rp => decide (rp.2 = j)) = 0 :=
        countP_snd_eq_zero hmem
      have hCeq : ((List.range P).filter
          (fun p => decide (p ∉ (chosenMatching R P w).map Prod.snd))).countP
          ((fun pr : Pair => decide (pr.pred? = some j))
            ∘ (fun p : Nat => (⟨none, some p, 0⟩ : Pair)))
          = ((List.range P).filter
            (fun p => decide (p ∉ (chosenMatching R P w).map Prod.snd))).countP
            (fun p => decide (p = j)) :=
        countP_congrB (fun p _ => by simp)
      have hC : ((List.range P).filter
          (fun p => decide (p ∉ (chosenMatching R P w).map Prod.snd))).countP
          (fun p => decide (p = j)) = 1 := by
        refine countP_eq_one_of_nodup_mem ((List.nodup_range P).filter _) ?_
        refine List.mem_filter.mpr ⟨List.mem_range.mpr hj, ?_⟩
        simp only [decide_eq_true_eq]
        exact hmem
      rw [hA, hCeq, hC]
  · intro pr hpr
    rw [hgp] at hpr
    rcases List.mem_append.mp hpr with hpr | hpr
    · rcases List.mem_append.mp hpr with hpr | hpr
      · obtain ⟨rp, _, rfl⟩ := List.mem_map.mp hpr
        exact ⟨fun hcon => Option.noConfusion hcon, fun hcon => Option.noConfusion hcon⟩
      · obtain ⟨r, _, rfl⟩ := List.mem_map.mp hpr
        exact ⟨fun hcon => Option.noConfusion hcon, fun _ => ⟨rfl, rfl⟩⟩
    · obtain ⟨p, _, rfl⟩ := List.mem_map.mp hpr
      exact ⟨fun _ => ⟨rfl, rfl⟩, fun hcon => Option.noConfusion hcon⟩
  · have hlf : (chosenMatching R P w).length
        = ((chosenMatching R P w).map Prod.fst).length := by
      rw [List.length_map]
    have hls : (chosenMatching R P w).length
        = ((chosenMatching R P w).map Prod.snd).length := by
      rw [List.length_map]
    refine le_min ?_ ?_
    · rw [hlf]
      have := nodup_subset_length_le hfn hfs
      rwa [List.length_range] at this
    · rw [hls]
      have := nodup_subset_length_le hsn hss
      rwa [List.length_range] at this
  · intro m h1 h2 h3 h4
    obtain ⟨m', hm', hww⟩ := matchingsAux_complete w (List.range R) (List.range P) m
      ⟨h1, h2, h3, h4⟩
    calc matchWeight w m = matchWeight w m' := hww.symm
      _ ≤ matchWeight w (chosenMatching R P w) :=
        (pickBest_spec w (matchingsAux (List.range R) (List.range P))).1 m' hm'

/-- C9 witness: on the optimal-versus-greedy matrix, reference 0 appears
in exactly one pair, and the total-2.0 assignment bounds from below the
weight of the chosen matching. -/
theorem C9_optimal_pairing_witness :
    refCount (get_pairs 2 2 exW) 0 = 1
    ∧ matchWeight exW [(0, 1), (1, 0)] ≤ matchWeight exW (chosenMatching 2 2 exW) :=
  ⟨(C9_optimal_pairing 2 2 exW).1 0 (by decide),
   (C9_optimal_pairing 2 2 exW).2.2.2.2 [(0, 1), (1, 0)]
     (by decide) (by decide) (by decide) (by decide)⟩
